import Mathlib

/-!
# Verification of the SPL validator and VSP aggregation engine

A shallow embedding of `src/usr.sbin/rpki-client/spl.c` (OpenBSD rpki-client):
the prefix comparators, the eContent semantic validator `spl_parse_econtent`,
the object builder `spl_parse`, the binary codec `spl_buffer`/`spl_read`, and
the VSP aggregation engine `spl_insert_vsps` with its sorted two-pointer merge
loop.  External collaborators (CMS verification, X.509 extension extraction,
ASN.1 address parsing, the io buffer layer, the repository statistics sink)
are modelled at their interface boundary as already-decoded optional values,
following the system specification.
-/

set_option maxHeartbeats 1000000

/-- Address family indicator.  Modelled from the spec: `enum afi` lives in the
repository header `extern.h`, which is not part of the sources at hand; the
spec fixes two families with IPv4 ordered before IPv6 (numeric enum values
1 and 2). -/
inductive afi where
  | AFI_IPV4
  | AFI_IPV6
deriving DecidableEq

/-- Numeric value of the `enum afi` constant (AFI_IPV4 = 1, AFI_IPV6 = 2),
used by the C comparisons `a->afi > b->afi`. -/
def afi.toNat : afi → Nat
  | .AFI_IPV4 => 1
  | .AFI_IPV6 => 2

/-- An IP prefix.  Modelled from the spec: `struct ip_addr` lives in
`extern.h` (not in the sources at hand); the spec describes it as address
bytes (a fixed 16-byte buffer, of which 4 are significant for IPv4) plus a
prefix length. -/
structure ip_addr where
  addr : List Nat
  prefixlen : Nat
  addr_len : addr.length = 16

instance : DecidableEq ip_addr := fun a b =>
  if h1 : a.addr = b.addr then
    if h2 : a.prefixlen = b.prefixlen then
      isTrue (by cases a; cases b; cases h1; cases h2; rfl)
    else isFalse (fun he => h2 (by cases he; rfl))
  else isFalse (fun he => h1 (by cases he; rfl))

instance : Inhabited ip_addr := ⟨⟨List.replicate 16 0, 0, by simp⟩⟩

/-- One element of an SPL/VSP prefix list.  Modelled from the spec:
`struct spl_pfx` (in `extern.h`, not in the sources at hand) pairs an address
family with an IP prefix. -/
structure spl_pfx where
  afi : afi
  pfx : ip_addr
deriving DecidableEq

instance : Inhabited spl_pfx := ⟨⟨afi.AFI_IPV4, default⟩⟩

/-- Lexicographic unsigned byte comparison, the semantics of the C `memcmp`
over the first `n` bytes (callers pass the relevant `List.take`); result is
-1, 0 or 1 like the sign `spl.c` inspects. -/
def memcmp : List Nat → List Nat → Int
  | a :: as, b :: bs =>
    if a < b then -1
    else if b < a then 1
    else memcmp as bs
  | _, _ => 0

/-- `prefix_cmp` from spl.c: compare the raw address bytes of a known family
(4 bytes for IPv4, 16 for IPv6) with `memcmp`, then the prefix length. -/
def prefix_cmp (fi : afi) (a b : ip_addr) : Int :=
  let cmp : Int :=
    match fi with
    | .AFI_IPV4 => memcmp (a.addr.take 4) (b.addr.take 4)
    | .AFI_IPV6 => memcmp (a.addr.take 16) (b.addr.take 16)
  if cmp < 0 then -1
  else if 0 < cmp then 1
  else if a.prefixlen < b.prefixlen then -1
  else if b.prefixlen < a.prefixlen then 1
  else 0

/-- `spl_pfx_cmp` from spl.c: address family first (IPv4 before IPv6), then
`prefix_cmp` on the prefixes. -/
def spl_pfx_cmp (a b : spl_pfx) : Int :=
  if b.afi.toNat < a.afi.toNat then 1
  else if a.afi.toNat < b.afi.toNat then -1
  else prefix_cmp a.afi a.pfx b.pfx

/-- `insert_vsp` from spl.c: insert `pfx` at position `idx` of the prefix
array, shifting the tail one slot to the right (the `memmove` plus
assignment, with the length bump `vsp->prefixesz++` reflected by the longer
list). -/
def insert_vsp (prefixes : List spl_pfx) (idx : Nat) (pfx : spl_pfx) : List spl_pfx :=
  prefixes.take idx ++ pfx :: prefixes.drop idx

/-- One iteration of the merge loop body of `spl_insert_vsps`
(spl.c:459-470), acting on the state `(i, j, vsp->prefixes)` for a fixed
incoming array `pfxs = spl->pfxs`:

* if `j == vsp->prefixesz` or the incoming entry is strictly smaller than
  `vsp->prefixes[j]`, insert it at `j` and advance `i`;
* if the entries compare equal, advance `i`;
* afterwards, advance `j` whenever `j < vsp->prefixesz` (the size having
  grown by one in the insertion case).

The guard is written `j ≥ length` rather than the C `j == vsp->prefixesz`;
the loop keeps `j ≤ vsp->prefixesz`, where the two coincide. -/
def spl_merge_step (pfxs : List spl_pfx) : Nat × Nat × List spl_pfx → Nat × Nat × List spl_pfx
  | (i, j, prefixes) =>
    if j ≥ prefixes.length ∨ spl_pfx_cmp (pfxs.getD i default) (prefixes.getD j default) < 0 then
      (i + 1,
       (if j < (insert_vsp prefixes j (pfxs.getD i default)).length then j + 1 else j),
       insert_vsp prefixes j (pfxs.getD i default))
    else if spl_pfx_cmp (pfxs.getD i default) (prefixes.getD j default) = 0 then
      (i + 1, (if j < prefixes.length then j + 1 else j), prefixes)
    else
      (i, (if j < prefixes.length then j + 1 else j), prefixes)

/-- The merge loop of `spl_insert_vsps` (spl.c:459-470): iterate
`spl_merge_step` while `i < spl->pfxsz`, returning the final
`vsp->prefixes`. -/
def spl_insert_loop (pfxs : List spl_pfx) : Nat × Nat × List spl_pfx → List spl_pfx
  | (i, j, prefixes) =>
    if h : i < pfxs.length then
      spl_insert_loop pfxs (spl_merge_step pfxs (i, j, prefixes))
    else prefixes
termination_by st => (pfxs.length - st.1) + (st.2.2.length - st.2.1)
decreasing_by
  simp only [spl_merge_step]
  split
  · simp only [insert_vsp, List.length_append, List.length_take, List.length_cons,
      List.length_drop]
    split <;> omega
  · split
    · split <;> dsimp only <;> omega
    · rename_i hc1 hc2
      have hj : j < prefixes.length := by
        rcases not_or.mp hc1 with ⟨h1, _⟩
        omega
      split <;> dsimp only <;> omega

/-- The two-pointer merge of `spl_insert_vsps`, phrased as a recursion on the
suffix of the incoming entries (`spl->pfxs` from index `i`) and the suffix of
the target record's entries (`vsp->prefixes` from index `j`), with the
already-passed portion of `vsp->prefixes` factored out.  The theorem
`spl_insert_loop_eq_vsp_merge` below proves this equal to the index-based
loop `spl_insert_loop` embedded directly from the C code. -/
def vsp_merge : List spl_pfx → List spl_pfx → List spl_pfx
  | [], qs => qs
  | p :: ps, [] => p :: vsp_merge ps []
  | p :: ps, q :: qs =>
    if spl_pfx_cmp p q < 0 then p :: vsp_merge ps (q :: qs)
    else if spl_pfx_cmp p q = 0 then q :: vsp_merge ps qs
    else q :: vsp_merge (p :: ps) qs
termination_by xs ys => xs.length + ys.length
decreasing_by all_goals simp +arith

/-- Ceiling on the accumulated number of prefixes.  Modelled from the spec:
`MAX_IP_SIZE` is defined in `extern.h` (not in the sources at hand); the spec
only requires a fixed positive ceiling, and the repository uses 200000. -/
def MAX_IP_SIZE : Nat := 200000

/-- One `AddressFamilyPrefixes` block of the decoded eContent, at the
interface boundary of the external decoders: the family tag after
`ip_addr_afi_parse` (`none` = unrecognized family) and each prefix encoding
after `ip_addr_parse` (`none` = undecodable prefix). -/
structure SplBlock where
  afiTag : Option afi
  addressPrefixes : List (Option ip_addr)

/-- The inner loop of `spl_parse_econtent` (spl.c:215-231) over one block:
decode every prefix (failure rejects), require each decoded prefix to compare
strictly greater than its predecessor in the block (`j > 0 &&
prefix_cmp(...) != -1` rejects), and append the entries to `spl->pfxs`.
`prev` is `prev_ip_addr` (`none` exactly when `j = 0`). -/
def parse_block_prefixes (fi : afi) :
    Option ip_addr → List (Option ip_addr) → List spl_pfx → Option (List spl_pfx)
  | _, [], acc => some acc
  | _, none :: _, _ => none
  | prev, some ip :: rest, acc =>
    match prev with
    | some pv =>
      if prefix_cmp fi pv ip ≠ -1 then none
      else parse_block_prefixes fi (some ip) rest (acc ++ [⟨fi, ip⟩])
    | none => parse_block_prefixes fi (some ip) rest (acc ++ [⟨fi, ip⟩])

/-- The outer loop of `spl_parse_econtent` (spl.c:170-232) over the
`prefixBlocks`, carrying `spl->pfxs` (as `acc`) and the `ipv4_seen` /
`ipv6_seen` counters: an empty block rejects, exceeding `MAX_IP_SIZE`
rejects, an unrecognized family rejects, a repeated family rejects, and IPv4
appearing after IPv6 rejects. -/
def parse_blocks : List SplBlock → List spl_pfx → Nat → Nat → Option (List spl_pfx)
  | [], acc, _, _ => some acc
  | b :: rest, acc, v4seen, v6seen =>
    if b.addressPrefixes.length = 0 then none
    else if acc.length + b.addressPrefixes.length ≥ MAX_IP_SIZE then none
    else
      match b.afiTag with
      | none => none
      | some afi.AFI_IPV4 =>
        if 0 < v4seen then none
        else if 0 < v6seen then none
        else
          match parse_block_prefixes afi.AFI_IPV4 none b.addressPrefixes acc with
          | none => none
          | some acc' => parse_blocks rest acc' (v4seen + 1) v6seen
      | some afi.AFI_IPV6 =>
        if 0 < v6seen then none
        else
          match parse_block_prefixes afi.AFI_IPV6 none b.addressPrefixes acc with
          | none => none
          | some acc' => parse_blocks rest acc' v4seen (v6seen + 1)

/-- `spl_parse_econtent` from spl.c, taken at the interface boundary of the
external ASN.1 template decoder: the input is `none` when
`d2i_SignedPrefixList` fails, trailing garbage remains, or the eContent
version is wrong, and otherwise carries the `as_id_parse` result (`none` =
malformed AS identifier) and the decoded `prefixBlocks`.  The stack count
`afpsz` of a decoded stack is the list length, hence never negative; the
`afpsz > 2` half of the C guard remains. -/
def spl_parse_econtent : Option (Option Nat × List SplBlock) → Option (Nat × List spl_pfx)
  | none => none
  | some (asidOpt, blocks) =>
    match asidOpt with
    | none => none
    | some asid =>
      if 2 < blocks.length then none
      else
        match parse_blocks blocks [] 0 0 with
        | none => none
        | some pfxs => some (asid, pfxs)

/-- An SPL record, `struct spl`.  Modelled from the spec for the field list
(the struct lives in `extern.h`, not in the sources at hand): holder AS id,
trust-anchor id, validity window, signing time, the four certificate
identifier strings, the flat prefix list (whose length is the C `pfxsz`),
the expiration, and the policy-validity flag. -/
structure Spl where
  valid : Bool
  asid : Nat
  talid : Nat
  pfxs : List spl_pfx
  expires : Int
  aia : Option String
  aki : Option String
  sia : Option String
  ski : Option String
  signtime : Int
  notbefore : Int
  notafter : Int
deriving DecidableEq

/-- Results of the X.509 extension extractors for the signer certificate, at
their interface boundary: outer `none` = the extractor itself failed, inner
value = the extension value or `none` when absent. -/
structure X509View where
  aia : Option (Option String)
  aki : Option (Option String)
  sia : Option (Option String)
  ski : Option (Option String)
  notbefore : Option Int
  notafter : Option Int
  anyInherits : Bool

/-- Resource summary of the end-entity certificate produced by
`cert_parse_ee_cert`: the number of AS-resource and IP-resource entries. -/
structure EECert where
  asz : Nat
  ipsz : Nat

/-- `spl_parse` from spl.c, taken at the interface boundary of the external
collaborators: `cms` is the `cms_parse_validate` result (payload handed to
`spl_parse_econtent`, plus the signing time), `x` the X.509 extractor
results, `ee` the `cert_parse_ee_cert` result, and `validPolicy` the
`valid_spl` policy verdict.  Returns `none` exactly when the C returns
`NULL`; the expiration field is not assigned in spl.c (it stays at the
`calloc` zero). -/
def spl_parse (talid : Nat) (cms : Option (Option (Option Nat × List SplBlock) × Int))
    (x : X509View) (ee : Option EECert) (validPolicy : Bool) : Option Spl :=
  match cms with
  | none => none
  | some (econtent, signtime) =>
    match x.aia with
    | none => none
    | some aia =>
      match x.aki with
      | none => none
      | some aki =>
        match x.sia with
        | none => none
        | some sia =>
          match x.ski with
          | none => none
          | some ski =>
            if aia = none ∨ aki = none ∨ sia = none ∨ ski = none then none
            else
              match x.notbefore with
              | none => none
              | some nb =>
                match x.notafter with
                | none => none
                | some na =>
                  match spl_parse_econtent econtent with
                  | none => none
                  | some (asid, pfxs) =>
                    if x.anyInherits then none
                    else
                      match ee with
                      | none => none
                      | some cert =>
                        if cert.asz = 0 then none
                        else if 0 < cert.ipsz then none
                        else
                          some { valid := validPolicy, asid := asid, talid := talid,
                                 pfxs := pfxs, expires := 0, aia := aia, aki := aki,
                                 sia := sia, ski := ski, signtime := signtime,
                                 notbefore := nb, notafter := na }

/-- One item written to / read from an internal `ibuf`.  Modelled from the
spec: the io layer (`io_simple_buffer`, `io_str_buffer`, `io_read_buf`,
`io_read_str` in io.c, not in the sources at hand) transports fixed-width
scalars, raw prefix-entry arrays, and length-prefixed optional strings over
a trusted channel, and decode is the exact inverse of encode per item. -/
inductive IoTok where
  | b (v : Bool)
  | n (v : Nat)
  | t (v : Int)
  | pfx (p : spl_pfx)
  | str (s : Option String)
deriving DecidableEq

/-- `spl_buffer` from spl.c: valid flag, AS id, trust-anchor id, prefix
count, expiration, the `pfxsz` prefix entries, then the AIA, AKI and SKI
strings, in that order. -/
def spl_buffer (s : Spl) : List IoTok :=
  [IoTok.b s.valid, IoTok.n s.asid, IoTok.n s.talid, IoTok.n s.pfxs.length,
   IoTok.t s.expires]
  ++ s.pfxs.map IoTok.pfx
  ++ [IoTok.str s.aia, IoTok.str s.aki, IoTok.str s.ski]

/-- Read the `s->pfxsz * sizeof(s->pfxs[0])` prefix-entry payload of
`spl_read`: exactly `n` prefix entries, returning them with the rest of the
stream. -/
def io_read_pfxs : Nat → List IoTok → Option (List spl_pfx × List IoTok)
  | 0, rest => some ([], rest)
  | n + 1, IoTok.pfx p :: rest =>
    match io_read_pfxs n rest with
    | some (l, r) => some (p :: l, r)
    | none => none
  | _ + 1, _ => none

/-- `spl_read` from spl.c: read back the fields in `spl_buffer` order into a
`calloc`-zeroed record, allocating exactly the transmitted prefix count, and
fail fatally (`assert(s->aia && s->aki && s->ski)`, here `none`) if any of
the three strings is absent after decode. -/
def spl_read (toks : List IoTok) : Option Spl :=
  match toks with
  | IoTok.b valid :: IoTok.n asid :: IoTok.n talid :: IoTok.n psz ::
      IoTok.t expires :: rest =>
    match io_read_pfxs psz rest with
    | none => none
    | some (pfxs, rest') =>
      match rest' with
      | IoTok.str aia :: IoTok.str aki :: IoTok.str ski :: _ =>
        if aia = none ∨ aki = none ∨ ski = none then none
        else
          some { valid := valid, asid := asid, talid := talid, pfxs := pfxs,
                 expires := expires, aia := aia, aki := aki, sia := none,
                 ski := ski, signtime := 0, notbefore := 0, notafter := 0 }
      | _ => none
  | _ => none

/-- A VSP record, `struct vsp`.  Modelled from the spec for the field list
(the struct lives in `extern.h`, not in the sources at hand): holder AS id,
trust-anchor id of the currently-latest-expiring contributor, its repository
id, the expiration, and the owned sorted prefix array (whose length is the C
`prefixesz`). -/
structure vsp where
  asid : Nat
  talid : Nat
  repoid : Nat
  expires : Int
  prefixes : List spl_pfx
deriving DecidableEq

/-- A statistics event type passed to the external `repo_stat_inc` sink
(all events of spl.c carry object type `RTYPE_SPL`). -/
inductive stype where
  | STYPE_UNIQUE
  | STYPE_DEC_UNIQUE
  | STYPE_TOTAL
deriving DecidableEq

/-- One call to the external statistics sink `repo_stat_inc`: the repository
handle it is charged to (`none` = the C `NULL`), the trust-anchor id, and
the event type. -/
structure StatEvent where
  rp : Option Nat
  talid : Nat
  ev : stype
deriving DecidableEq

/-- `spl_insert_vsps` from spl.c.  The RB tree keyed by AS id (`vspcmp`) is
modelled as a map from AS id to its unique record; a repository handle is
identified with its `repo_id` (so `repo_byid` is `some`).  Builds the
candidate record (repoid stays at the `calloc` zero when `rp == NULL`),
looks up / inserts by AS id, supersedes the metadata and adjusts the unique
statistic when the existing record expires strictly earlier, always counts a
total, and merges the SPL's prefixes into the record with the sorted
insertion loop.  Returns the updated map and the emitted statistics
events. -/
def spl_insert_vsps (tree : Nat → Option vsp) (spl : Spl) (rp : Option Nat) :
    (Nat → Option vsp) × List StatEvent :=
  let cand : vsp :=
    { asid := spl.asid, talid := spl.talid,
      repoid := match rp with | some r => r | none => 0,
      expires := spl.expires, prefixes := [] }
  match tree spl.asid with
  | some found =>
    let target : vsp :=
      if found.expires < cand.expires then
        { found with expires := cand.expires, talid := cand.talid,
                     repoid := cand.repoid }
      else found
    let events : List StatEvent :=
      (if found.expires < cand.expires then
        [⟨some found.repoid, found.talid, stype.STYPE_DEC_UNIQUE⟩,
         ⟨rp, cand.talid, stype.STYPE_UNIQUE⟩]
       else [])
      ++ [⟨rp, spl.talid, stype.STYPE_TOTAL⟩]
    (fun a => if a = spl.asid then
        some { target with prefixes := spl_insert_loop spl.pfxs (0, 0, target.prefixes) }
      else tree a,
     events)
  | none =>
    ((fun a => if a = spl.asid then
        some { cand with prefixes := spl_insert_loop spl.pfxs (0, 0, cand.prefixes) }
      else tree a),
     [⟨rp, cand.talid, stype.STYPE_UNIQUE⟩, ⟨rp, spl.talid, stype.STYPE_TOTAL⟩])

/-- The prefix list of the VSP record currently stored for AS id `a`
(empty when no record exists yet). -/
def vspPrefixesAt (tree : Nat → Option vsp) (a : Nat) : List spl_pfx :=
  match tree a with
  | some v => v.prefixes
  | none => []

/-- Strict order in which a VSP / SPL prefix list is maintained: grouped by
address family and strictly increasing under `spl_pfx_cmp`. -/
def pfxLt (a b : spl_pfx) : Prop := spl_pfx_cmp a b < 0

instance : DecidableRel pfxLt := fun a b => by
  unfold pfxLt; infer_instance

/-- The address bytes `prefix_cmp` actually inspects for a family: the first
4 for IPv4, all 16 for IPv6. -/
def addr_key (fi : afi) (a : ip_addr) : List Nat :=
  match fi with
  | .AFI_IPV4 => a.addr.take 4
  | .AFI_IPV6 => a.addr.take 16

/-- Build an IPv4-style address: four given leading bytes, twelve zero
bytes, and a prefix length (sample data for concrete checks). -/
def mkV4 (b0 b1 b2 b3 plen : Nat) : ip_addr :=
  ⟨[b0, b1, b2, b3] ++ List.replicate 12 0, plen, by simp⟩

/-- Build an IPv6-style address: one leading byte, fifteen zero bytes, and a
prefix length (sample data for concrete checks). -/
def mkV6 (b0 plen : Nat) : ip_addr :=
  ⟨[b0] ++ List.replicate 15 0, plen, by simp⟩

/-- Sample prefix entry 10.0.0.0/8. -/
def pfxA : spl_pfx := ⟨afi.AFI_IPV4, mkV4 10 0 0 0 8⟩

/-- Sample prefix entry 10.1.0.0/16. -/
def pfxB : spl_pfx := ⟨afi.AFI_IPV4, mkV4 10 1 0 0 16⟩

/-- Sample prefix entry 10.2.0.0/16. -/
def pfxC : spl_pfx := ⟨afi.AFI_IPV4, mkV4 10 2 0 0 16⟩

/-- Sample IPv6 prefix entry 2000::/12. -/
def pfxD : spl_pfx := ⟨afi.AFI_IPV6, mkV6 32 12⟩

/-- A sample SPL record with the given AS id, trust-anchor id, expiration
and prefixes, all strings present (as guaranteed by `spl_parse`). -/
def mkSpl (asid talid : Nat) (expires : Int) (pfxs : List spl_pfx) : Spl :=
  { valid := true, asid := asid, talid := talid, pfxs := pfxs,
    expires := expires, aia := some "rsync://a", aki := some "ak",
    sia := some "si", ski := some "sk", signtime := 5, notbefore := 1,
    notafter := 9 }

/-- The empty VSP database. -/
def emptyVspTree : Nat → Option vsp := fun _ => none

/-- A VSP database holding exactly one record. -/
def oneVspTree (v : vsp) : Nat → Option vsp :=
  fun a => if a = v.asid then some v else none

/-! ## Properties of the ordering primitives -/

theorem memcmp_self (l : List Nat) : memcmp l l = 0 := by
  induction l with
  | nil => simp [memcmp]
  | cons x xs ih => simp [memcmp, ih]

theorem memcmp_neg (a b : List Nat) : memcmp b a = -memcmp a b := by
  induction a generalizing b with
  | nil => cases b <;> simp [memcmp]
  | cons x as ih =>
    cases b with
    | nil => simp [memcmp]
    | cons y bs =>
      rcases Nat.lt_trichotomy x y with h | h | h
      · simp [memcmp, h, Nat.lt_asymm h]
      · subst h; simp [memcmp, ih bs]
      · simp [memcmp, h, Nat.lt_asymm h]

theorem memcmp_eq_zero {a b : List Nat} (hl : a.length = b.length)
    (h : memcmp a b = 0) : a = b := by
  induction a generalizing b with
  | nil => cases b with
    | nil => rfl
    | cons y bs => simp at hl
  | cons x as ih =>
    cases b with
    | nil => simp at hl
    | cons y bs =>
      rcases Nat.lt_trichotomy x y with hxy | hxy | hxy
      · simp [memcmp, hxy] at h
      · subst hxy
        simp only [memcmp, Nat.lt_irrefl, if_false] at h
        simp only [List.length_cons, Nat.add_right_cancel_iff] at hl
        rw [ih hl h]
      · simp [memcmp, hxy, Nat.lt_asymm hxy] at h

theorem memcmp_lt_trans {a b c : List Nat} (hab : memcmp a b < 0)
    (hbc : memcmp b c < 0) : memcmp a c < 0 := by
  induction a generalizing b c with
  | nil => simp [memcmp] at hab
  | cons x as ih =>
    cases b with
    | nil => simp [memcmp] at hab
    | cons y bs =>
      cases c with
      | nil => simp [memcmp] at hbc
      | cons z cs =>
        rcases Nat.lt_trichotomy x y with hxy | hxy | hxy
        · rcases Nat.lt_trichotomy y z with hyz | hyz | hyz
          · simp [memcmp, Nat.lt_trans hxy hyz]
          · subst hyz; simp [memcmp, hxy]
          · simp [memcmp, hyz, Nat.lt_asymm hyz] at hbc
        · subst hxy
          simp only [memcmp, Nat.lt_irrefl, if_false] at hab
          rcases Nat.lt_trichotomy x z with hyz | hyz | hyz
          · simp [memcmp, hyz]
          · subst hyz
            simp only [memcmp, Nat.lt_irrefl, if_false] at hbc ⊢
            exact ih hab hbc
          · simp [memcmp, hyz, Nat.lt_asymm hyz] at hbc
        · simp [memcmp, hxy, Nat.lt_asymm hxy] at hab

theorem addr_key_length (fi : afi) (a : ip_addr) :
    (addr_key fi a).length = (match fi with | .AFI_IPV4 => 4 | .AFI_IPV6 => 16) := by
  cases fi <;> simp [addr_key, a.addr_len]

theorem prefix_cmp_eq_key (fi : afi) (a b : ip_addr) :
    prefix_cmp fi a b =
      (if memcmp (addr_key fi a) (addr_key fi b) < 0 then -1
       else if 0 < memcmp (addr_key fi a) (addr_key fi b) then 1
       else if a.prefixlen < b.prefixlen then -1
       else if b.prefixlen < a.prefixlen then 1
       else 0) := by
  cases fi <;> rfl

theorem prefix_cmp_self (fi : afi) (a : ip_addr) : prefix_cmp fi a a = 0 := by
  rw [prefix_cmp_eq_key]
  simp [memcmp_self]

theorem prefix_cmp_neg (fi : afi) (a b : ip_addr) :
    prefix_cmp fi b a = -prefix_cmp fi a b := by
  rw [prefix_cmp_eq_key, prefix_cmp_eq_key, memcmp_neg (addr_key fi a) (addr_key fi b)]
  rcases Int.lt_trichotomy (memcmp (addr_key fi a) (addr_key fi b)) 0 with h | h | h <;>
    rcases Nat.lt_trichotomy a.prefixlen b.prefixlen with h2 | h2 | h2 <;>
    split_ifs <;> omega

theorem prefix_cmp_vals (fi : afi) (a b : ip_addr) :
    prefix_cmp fi a b = -1 ∨ prefix_cmp fi a b = 0 ∨ prefix_cmp fi a b = 1 := by
  rw [prefix_cmp_eq_key]
  split_ifs <;> simp

theorem prefix_cmp_lt_trans {fi : afi} {a b c : ip_addr}
    (hab : prefix_cmp fi a b < 0) (hbc : prefix_cmp fi b c < 0) :
    prefix_cmp fi a c < 0 := by
  rw [prefix_cmp_eq_key] at hab hbc ⊢
  have hlab : (addr_key fi a).length = (addr_key fi b).length := by
    rw [addr_key_length, addr_key_length]
  have hlbc : (addr_key fi b).length = (addr_key fi c).length := by
    rw [addr_key_length, addr_key_length]
  rcases Int.lt_trichotomy (memcmp (addr_key fi a) (addr_key fi b)) 0 with h1 | h1 | h1
  · rcases Int.lt_trichotomy (memcmp (addr_key fi b) (addr_key fi c)) 0 with h2 | h2 | h2
    · have := memcmp_lt_trans h1 h2
      simp [this]
    · have hkey := memcmp_eq_zero hlbc h2
      rw [← hkey]
      simp [h1]
    · simp [h2, Int.lt_asymm h2] at hbc
  · have hkey := memcmp_eq_zero hlab h1
    rw [hkey] at hab ⊢
    simp only [Int.lt_irrefl, if_false, memcmp_self] at hab ⊢
    rcases Int.lt_trichotomy (memcmp (addr_key fi b) (addr_key fi c)) 0 with h2 | h2 | h2
    · simp [h2]
    · have hkey2 := memcmp_eq_zero hlbc h2
      rw [hkey2, memcmp_self]
      simp only [lt_irrefl, if_false]
      split_ifs at hab hbc ⊢ <;> omega
    · split_ifs at hbc <;> omega
  · split_ifs at hab <;> omega

theorem prefix_cmp_zero_parts {fi : afi} {a b : ip_addr}
    (h : prefix_cmp fi a b = 0) :
    addr_key fi a = addr_key fi b ∧ a.prefixlen = b.prefixlen := by
  rw [prefix_cmp_eq_key] at h
  have hlab : (addr_key fi a).length = (addr_key fi b).length := by
    rw [addr_key_length, addr_key_length]
  split_ifs at h <;> first
  | omega
  | (rename_i h1 h2 h3 h4
     refine ⟨memcmp_eq_zero hlab ?_, by omega⟩
     omega)

theorem prefix_cmp_congr_left {fi : afi} {a b : ip_addr}
    (hkey : addr_key fi a = addr_key fi b) (hlen : a.prefixlen = b.prefixlen)
    (z : ip_addr) : prefix_cmp fi a z = prefix_cmp fi b z := by
  rw [prefix_cmp_eq_key, prefix_cmp_eq_key, hkey, hlen]

theorem afi_toNat_inj : ∀ {x y : afi}, x.toNat = y.toNat → x = y := by
  intro x y
  cases x <;> cases y <;> simp [afi.toNat]

theorem spl_pfx_cmp_self (a : spl_pfx) : spl_pfx_cmp a a = 0 := by
  simp [spl_pfx_cmp, prefix_cmp_self]

theorem spl_pfx_cmp_neg (a b : spl_pfx) : spl_pfx_cmp b a = -spl_pfx_cmp a b := by
  simp only [spl_pfx_cmp]
  rcases Nat.lt_trichotomy a.afi.toNat b.afi.toNat with h | h | h
  · simp [h, Nat.lt_asymm h]
  · have hafi : a.afi = b.afi := afi_toNat_inj h
    have hx : ¬ b.afi.toNat < b.afi.toNat := lt_irrefl _
    rw [h]
    simp only [if_neg hx]
    rw [hafi]
    exact prefix_cmp_neg b.afi a.pfx b.pfx
  · simp [h, Nat.lt_asymm h]

theorem spl_pfx_cmp_lt_iff (a b : spl_pfx) :
    spl_pfx_cmp a b < 0 ↔
      a.afi.toNat < b.afi.toNat ∨
        (a.afi = b.afi ∧ prefix_cmp a.afi a.pfx b.pfx < 0) := by
  simp only [spl_pfx_cmp]
  rcases Nat.lt_trichotomy a.afi.toNat b.afi.toNat with h | h | h
  · simp [h, Nat.lt_asymm h]
  · have hafi : a.afi = b.afi := afi_toNat_inj h
    simp [h, hafi]
  · have : a.afi ≠ b.afi := fun he => by rw [he] at h; omega
    simp [h, Nat.lt_asymm h, this]

theorem spl_pfx_cmp_eq_zero_iff (a b : spl_pfx) :
    spl_pfx_cmp a b = 0 ↔ a.afi = b.afi ∧ prefix_cmp a.afi a.pfx b.pfx = 0 := by
  simp only [spl_pfx_cmp]
  rcases Nat.lt_trichotomy a.afi.toNat b.afi.toNat with h | h | h
  · have : a.afi ≠ b.afi := fun he => by rw [he] at h; omega
    simp [h, Nat.lt_asymm h, this]
  · have hafi : a.afi = b.afi := afi_toNat_inj h
    simp [h, hafi]
  · have : a.afi ≠ b.afi := fun he => by rw [he] at h; omega
    simp [h, Nat.lt_asymm h, this]

theorem spl_pfx_cmp_lt_trans {a b c : spl_pfx} (hab : spl_pfx_cmp a b < 0)
    (hbc : spl_pfx_cmp b c < 0) : spl_pfx_cmp a c < 0 := by
  rw [spl_pfx_cmp_lt_iff] at hab hbc ⊢
  rcases hab with h1 | ⟨h1, h1p⟩
  · rcases hbc with h2 | ⟨h2, h2p⟩
    · exact Or.inl (Nat.lt_trans h1 h2)
    · exact Or.inl (h2 ▸ h1)
  · rcases hbc with h2 | ⟨h2, h2p⟩
    · exact Or.inl (h1 ▸ h2)
    · refine Or.inr ⟨h1.trans h2, ?_⟩
      rw [h1] at h1p ⊢
      exact prefix_cmp_lt_trans h1p (h2 ▸ h2p)

theorem spl_pfx_cmp_zero_congr_left {a b : spl_pfx}
    (h : spl_pfx_cmp a b = 0) (z : spl_pfx) :
    spl_pfx_cmp a z = spl_pfx_cmp b z := by
  rw [spl_pfx_cmp_eq_zero_iff] at h
  obtain ⟨hafi, hp⟩ := h
  obtain ⟨hkey, hlen⟩ := prefix_cmp_zero_parts hp
  simp only [spl_pfx_cmp, hafi]
  rw [hafi] at hkey
  rw [prefix_cmp_congr_left hkey hlen]

theorem spl_pfx_cmp_zero_congr_right {a b : spl_pfx}
    (h : spl_pfx_cmp a b = 0) (z : spl_pfx) :
    spl_pfx_cmp z a = spl_pfx_cmp z b := by
  rw [spl_pfx_cmp_neg a z, spl_pfx_cmp_neg b z,
    spl_pfx_cmp_zero_congr_left h z]

/-! ## Properties of the two-pointer merge -/

theorem vsp_merge_nil_right (xs : List spl_pfx) : vsp_merge xs [] = xs := by
  induction xs with
  | nil => rw [vsp_merge]
  | cons p ps ih => rw [vsp_merge, ih]

theorem vsp_merge_mem (xs ys : List spl_pfx) :
    ∀ x ∈ vsp_merge xs ys, x ∈ xs ∨ x ∈ ys := by
  induction xs, ys using vsp_merge.induct with
  | case1 qs => intro x hx; rw [vsp_merge] at hx; exact Or.inr hx
  | case2 p ps ih =>
    intro x hx
    rw [vsp_merge] at hx
    rcases List.mem_cons.mp hx with h | h
    · exact Or.inl (h ▸ List.mem_cons_self _ _)
    · rcases ih x h with h2 | h2
      · exact Or.inl (List.mem_cons_of_mem _ h2)
      · simp at h2
  | case3 p ps q qs hlt ih =>
    intro x hx
    rw [vsp_merge, if_pos hlt] at hx
    rcases List.mem_cons.mp hx with h | h
    · exact Or.inl (h ▸ List.mem_cons_self _ _)
    · rcases ih x h with h2 | h2
      · exact Or.inl (List.mem_cons_of_mem _ h2)
      · exact Or.inr h2
  | case4 p ps q qs hlt heq ih =>
    intro x hx
    rw [vsp_merge, if_neg hlt, if_pos heq] at hx
    rcases List.mem_cons.mp hx with h | h
    · exact Or.inr (h ▸ List.mem_cons_self _ _)
    · rcases ih x h with h2 | h2
      · exact Or.inl (List.mem_cons_of_mem _ h2)
      · exact Or.inr (List.mem_cons_of_mem _ h2)
  | case5 p ps q qs hlt heq ih =>
    intro x hx
    rw [vsp_merge, if_neg hlt, if_neg heq] at hx
    rcases List.mem_cons.mp hx with h | h
    · exact Or.inr (h ▸ List.mem_cons_self _ _)
    · rcases ih x h with h2 | h2
      · exact Or.inl h2
      · exact Or.inr (List.mem_cons_of_mem _ h2)

theorem vsp_merge_mem_right (xs ys : List spl_pfx) :
    ∀ q ∈ ys, q ∈ vsp_merge xs ys := by
  induction xs, ys using vsp_merge.induct with
  | case1 qs => intro x hx; rw [vsp_merge]; exact hx
  | case2 p ps ih => intro x hx; simp at hx
  | case3 p ps q qs hlt ih =>
    intro x hx
    rw [vsp_merge, if_pos hlt]
    exact List.mem_cons_of_mem _ (ih x hx)
  | case4 p ps q qs hlt heq ih =>
    intro x hx
    rw [vsp_merge, if_neg hlt, if_pos heq]
    rcases List.mem_cons.mp hx with h | h
    · exact h ▸ List.mem_cons_self _ _
    · exact List.mem_cons_of_mem _ (ih x h)
  | case5 p ps q qs hlt heq ih =>
    intro x hx
    rw [vsp_merge, if_neg hlt, if_neg heq]
    rcases List.mem_cons.mp hx with h | h
    · exact h ▸ List.mem_cons_self _ _
    · exact List.mem_cons_of_mem _ (ih x h)

theorem vsp_merge_mem_left_cmp (xs ys : List spl_pfx) :
    ∀ p ∈ xs, ∃ q ∈ vsp_merge xs ys, spl_pfx_cmp p q = 0 := by
  induction xs, ys using vsp_merge.induct with
  | case1 qs => intro p hp; simp at hp
  | case2 p ps ih =>
    intro x hx
    rw [vsp_merge]
    rcases List.mem_cons.mp hx with h | h
    · exact ⟨p, List.mem_cons_self _ _, h ▸ spl_pfx_cmp_self x⟩
    · obtain ⟨q, hq, hcmp⟩ := ih x h
      exact ⟨q, List.mem_cons_of_mem _ hq, hcmp⟩
  | case3 p ps q qs hlt ih =>
    intro x hx
    rw [vsp_merge, if_pos hlt]
    rcases List.mem_cons.mp hx with h | h
    · exact ⟨p, List.mem_cons_self _ _, h ▸ spl_pfx_cmp_self x⟩
    · obtain ⟨q2, hq, hcmp⟩ := ih x h
      exact ⟨q2, List.mem_cons_of_mem _ hq, hcmp⟩
  | case4 p ps q qs hlt heq ih =>
    intro x hx
    rw [vsp_merge, if_neg hlt, if_pos heq]
    rcases List.mem_cons.mp hx with h | h
    · exact ⟨q, List.mem_cons_self _ _, h ▸ heq⟩
    · obtain ⟨q2, hq, hcmp⟩ := ih x h
      exact ⟨q2, List.mem_cons_of_mem _ hq, hcmp⟩
  | case5 p ps q qs hlt heq ih =>
    intro x hx
    rw [vsp_merge, if_neg hlt, if_neg heq]
    obtain ⟨q2, hq, hcmp⟩ := ih x hx
    exact ⟨q2, List.mem_cons_of_mem _ hq, hcmp⟩

theorem vsp_merge_mem_left (xs ys : List spl_pfx)
    (hc : ∀ p ∈ xs, ∀ q ∈ ys, spl_pfx_cmp p q = 0 → p = q) :
    ∀ p ∈ xs, p ∈ vsp_merge xs ys := by
  induction xs, ys using vsp_merge.induct with
  | case1 qs => intro p hp; simp at hp
  | case2 p ps ih =>
    intro x hx
    rw [vsp_merge]
    rcases List.mem_cons.mp hx with h | h
    · exact h ▸ List.mem_cons_self _ _
    · exact List.mem_cons_of_mem _ (ih (fun a ha b hb => hc a (List.mem_cons_of_mem _ ha) b hb) x h)
  | case3 p ps q qs hlt ih =>
    intro x hx
    rw [vsp_merge, if_pos hlt]
    rcases List.mem_cons.mp hx with h | h
    · exact h ▸ List.mem_cons_self _ _
    · exact List.mem_cons_of_mem _ (ih (fun a ha b hb => hc a (List.mem_cons_of_mem _ ha) b hb) x h)
  | case4 p ps q qs hlt heq ih =>
    intro x hx
    rw [vsp_merge, if_neg hlt, if_pos heq]
    rcases List.mem_cons.mp hx with h | h
    · have : p = q := hc p (List.mem_cons_self _ _) q (List.mem_cons_self _ _) heq
      exact (h.trans this) ▸ List.mem_cons_self _ _
    · refine List.mem_cons_of_mem _ (ih ?_ x h)
      intro a ha b hb
      exact hc a (List.mem_cons_of_mem _ ha) b (List.mem_cons_of_mem _ hb)
  | case5 p ps q qs hlt heq ih =>
    intro x hx
    rw [vsp_merge, if_neg hlt, if_neg heq]
    refine List.mem_cons_of_mem _ (ih ?_ x hx)
    intro a ha b hb
    exact hc a ha b (List.mem_cons_of_mem _ hb)

theorem vsp_merge_pairwise (xs ys : List spl_pfx) :
    xs.Pairwise pfxLt → ys.Pairwise pfxLt →
    (vsp_merge xs ys).Pairwise pfxLt := by
  induction xs, ys using vsp_merge.induct with
  | case1 qs =>
    intro _ hy
    rw [vsp_merge]
    exact hy
  | case2 p ps ih =>
    intro hx _
    rw [vsp_merge]
    rw [List.pairwise_cons] at hx ⊢
    obtain ⟨hb, hx'⟩ := hx
    refine ⟨?_, ih hx' List.Pairwise.nil⟩
    intro z hz
    rcases vsp_merge_mem ps [] z hz with h | h
    · exact hb z h
    · simp at h
  | case3 p ps q qs hlt ih =>
    intro hx hy
    rw [vsp_merge, if_pos hlt]
    rw [List.pairwise_cons] at hx ⊢
    obtain ⟨hb, hx'⟩ := hx
    refine ⟨?_, ih hx' hy⟩
    intro z hz
    rcases vsp_merge_mem ps (q :: qs) z hz with h | h
    · exact hb z h
    · rcases List.mem_cons.mp h with h2 | h2
      · exact h2 ▸ hlt
      · have hqz : pfxLt q z := (List.pairwise_cons.mp hy).1 z h2
        exact spl_pfx_cmp_lt_trans hlt hqz
  | case4 p ps q qs hlt heq ih =>
    intro hx hy
    rw [vsp_merge, if_neg hlt, if_pos heq]
    rw [List.pairwise_cons] at hx hy ⊢
    obtain ⟨hbx, hx'⟩ := hx
    obtain ⟨hby, hy'⟩ := hy
    refine ⟨?_, ih hx' hy'⟩
    intro z hz
    rcases vsp_merge_mem ps qs z hz with h | h
    · have hpz : pfxLt p z := hbx z h
      have hc := spl_pfx_cmp_zero_congr_left heq z
      simp only [pfxLt] at hpz ⊢
      omega
    · exact hby z h
  | case5 p ps q qs hlt heq ih =>
    intro hx hy
    rw [vsp_merge, if_neg hlt, if_neg heq]
    rw [List.pairwise_cons] at hy ⊢
    obtain ⟨hby, hy'⟩ := hy
    refine ⟨?_, ih hx hy'⟩
    have hqp : pfxLt q p := by
      have hn := spl_pfx_cmp_neg p q
      simp only [pfxLt]
      omega
    intro z hz
    rcases vsp_merge_mem (p :: ps) qs z hz with h | h
    · rcases List.mem_cons.mp h with h2 | h2
      · exact h2 ▸ hqp
      · have hpz : pfxLt p z := (List.pairwise_cons.mp hx).1 z h2
        exact spl_pfx_cmp_lt_trans hqp hpz
    · exact hby z h

theorem vsp_merge_absorb (xs ms : List spl_pfx) :
    xs.Pairwise pfxLt → ms.Pairwise pfxLt →
    (∀ x ∈ xs, ∃ q ∈ ms, spl_pfx_cmp x q = 0) → vsp_merge xs ms = ms := by
  induction xs, ms using vsp_merge.induct with
  | case1 qs =>
    intro _ _ _
    rw [vsp_merge]
  | case2 p ps ih =>
    intro _ _ hall
    obtain ⟨q, hq, _⟩ := hall p (List.mem_cons_self _ _)
    simp at hq
  | case3 p ps q qs hlt ih =>
    intro hx hm hall
    exfalso
    obtain ⟨q0, hq0, hcmp⟩ := hall p (List.mem_cons_self _ _)
    rcases List.mem_cons.mp hq0 with h | h
    · rw [h] at hcmp
      omega
    · have hqq0 : pfxLt q q0 := (List.pairwise_cons.mp hm).1 q0 h
      have hc := spl_pfx_cmp_zero_congr_right hcmp q
      have hn := spl_pfx_cmp_neg p q
      simp only [pfxLt] at hqq0
      omega
  | case4 p ps q qs hlt heq ih =>
    intro hx hm hall
    rw [vsp_merge, if_neg hlt, if_pos heq]
    congr 1
    refine ih (List.pairwise_cons.mp hx).2 (List.pairwise_cons.mp hm).2 ?_
    intro x hxp
    obtain ⟨q0, hq0, hcmp⟩ := hall x (List.mem_cons_of_mem _ hxp)
    rcases List.mem_cons.mp hq0 with h | h
    · exfalso
      have hpx : pfxLt p x := (List.pairwise_cons.mp hx).1 x hxp
      rw [h] at hcmp
      have hc := spl_pfx_cmp_zero_congr_right hcmp p
      simp only [pfxLt] at hpx
      omega
    · exact ⟨q0, h, hcmp⟩
  | case5 p ps q qs hlt heq ih =>
    intro hx hm hall
    rw [vsp_merge, if_neg hlt, if_neg heq]
    congr 1
    refine ih hx (List.pairwise_cons.mp hm).2 ?_
    intro x hxp
    obtain ⟨q0, hq0, hcmp⟩ := hall x hxp
    rcases List.mem_cons.mp hq0 with h | h
    · exfalso
      rw [h] at hcmp
      rcases List.mem_cons.mp hxp with h2 | h2
      · rw [h2] at hcmp
        exact heq hcmp
      · have hpx : pfxLt p x := (List.pairwise_cons.mp hx).1 x h2
        have hc := spl_pfx_cmp_zero_congr_right hcmp p
        simp only [pfxLt] at hpx
        omega
    · exact ⟨q0, h, hcmp⟩

theorem getD_append_mid (A : List spl_pfx) (b : spl_pfx) (B : List spl_pfx)
    (d : spl_pfx) : (A ++ b :: B).getD A.length d = b := by
  induction A with
  | nil => rfl
  | cons x xs ih => simpa using ih

theorem getD_cons_drop (l : List spl_pfx) (i : Nat) (d : spl_pfx)
    (h : i < l.length) : l.drop i = l.getD i d :: l.drop (i + 1) := by
  induction l generalizing i with
  | nil => simp at h
  | cons x xs ih =>
    cases i with
    | zero => simp
    | succ n => simpa using ih n (by simpa using h)

theorem insert_vsp_at_boundary (done tail : List spl_pfx) (pfx : spl_pfx) :
    insert_vsp (done ++ tail) done.length pfx = done ++ pfx :: tail := by
  simp only [insert_vsp]
  rw [List.take_left, List.drop_left]

/-- Loop invariant of the merge loop of `spl_insert_vsps`: with `j` standing
at the boundary between the already-processed entries `done` and the not yet
visited entries `rest` of `vsp->prefixes`, finishing the loop produces
`done` followed by the two-pointer merge of the remaining incoming entries
with `rest`. -/
theorem spl_insert_loop_invariant (pfxs : List spl_pfx) (n : Nat) :
    ∀ (i : Nat) (done rest : List spl_pfx), i ≤ pfxs.length →
      (pfxs.length - i) + rest.length ≤ n →
      spl_insert_loop pfxs (i, done.length, done ++ rest) =
        done ++ vsp_merge (pfxs.drop i) rest := by
  induction n using Nat.strong_induction_on with
  | _ n IH =>
    intro i done rest hi hm
    by_cases hlt : i < pfxs.length
    · rw [spl_insert_loop, dif_pos hlt]
      have hp := getD_cons_drop pfxs i default hlt
      cases rest with
      | nil =>
        simp only [List.length_nil] at hm
        have hstep : spl_merge_step pfxs (i, done.length, done) =
            (i + 1, done.length + 1, done ++ [pfxs.getD i default]) := by
          simp only [spl_merge_step]
          rw [if_pos (Or.inl (le_refl _))]
          rw [show insert_vsp done done.length (pfxs.getD i default) =
                done ++ [pfxs.getD i default] from by
              simpa using insert_vsp_at_boundary done [] (pfxs.getD i default)]
          simp
        rw [List.append_nil, hstep]
        have h2 : spl_insert_loop pfxs
            (i + 1, (done ++ [pfxs.getD i default]).length,
              (done ++ [pfxs.getD i default]) ++ []) =
            (done ++ [pfxs.getD i default]) ++ vsp_merge (pfxs.drop (i + 1)) [] := by
          refine IH ((pfxs.length - (i + 1)) + 0) (by omega) (i + 1) _ [] (by omega)
            (by simp)
        simp only [List.append_nil, List.length_append, List.length_cons,
          List.length_nil] at h2
        rw [h2, hp, vsp_merge]
        simp
      | cons q rest' =>
        simp only [List.length_cons] at hm
        have hq : (done ++ q :: rest').getD done.length default = q :=
          getD_append_mid done q rest' default
        have hjlen : ¬ done.length ≥ (done ++ q :: rest').length := by
          simp only [List.length_append, List.length_cons]
          omega
        rcases Int.lt_trichotomy (spl_pfx_cmp (pfxs.getD i default) q) 0 with hc | hc | hc
        · have hstep : spl_merge_step pfxs (i, done.length, done ++ q :: rest') =
              (i + 1, done.length + 1, done ++ pfxs.getD i default :: q :: rest') := by
            simp only [spl_merge_step]
            rw [hq, if_pos (Or.inr hc), insert_vsp_at_boundary]
            simp only [List.length_append, List.length_cons]
            rw [if_pos (by omega)]
          rw [hstep]
          have h2 : spl_insert_loop pfxs
              (i + 1, (done ++ [pfxs.getD i default]).length,
                (done ++ [pfxs.getD i default]) ++ (q :: rest')) =
              (done ++ [pfxs.getD i default]) ++
                vsp_merge (pfxs.drop (i + 1)) (q :: rest') :=
            IH ((pfxs.length - (i + 1)) + (rest'.length + 1)) (by omega)
              (i + 1) _ _ (by omega) (by simp)
          simp only [List.length_append, List.length_cons, List.length_nil,
            List.append_assoc, List.singleton_append] at h2
          rw [h2, hp, vsp_merge, if_pos hc]
        · have hstep : spl_merge_step pfxs (i, done.length, done ++ q :: rest') =
              (i + 1, done.length + 1, done ++ q :: rest') := by
            simp only [spl_merge_step]
            rw [hq, if_neg (by push_neg; exact ⟨by omega, by omega⟩), if_pos hc]
            simp only [List.length_append, List.length_cons]
            rw [if_pos (by omega)]
          rw [hstep]
          have h2 : spl_insert_loop pfxs
              (i + 1, (done ++ [q]).length, (done ++ [q]) ++ rest') =
              (done ++ [q]) ++ vsp_merge (pfxs.drop (i + 1)) rest' :=
            IH ((pfxs.length - (i + 1)) + rest'.length) (by omega) (i + 1) _ _
              (by omega) (by omega)
          simp only [List.length_append, List.length_cons, List.length_nil,
            List.append_assoc, List.singleton_append] at h2
          rw [h2, hp, vsp_merge, if_neg (by omega), if_pos hc]
        · have hstep : spl_merge_step pfxs (i, done.length, done ++ q :: rest') =
              (i, done.length + 1, done ++ q :: rest') := by
            simp only [spl_merge_step]
            rw [hq, if_neg (by push_neg; exact ⟨by omega, by omega⟩),
              if_neg (by omega)]
            simp only [List.length_append, List.length_cons]
            rw [if_pos (by omega)]
          rw [hstep]
          have h2 : spl_insert_loop pfxs
              (i, (done ++ [q]).length, (done ++ [q]) ++ rest') =
              (done ++ [q]) ++ vsp_merge (pfxs.drop i) rest' :=
            IH ((pfxs.length - i) + rest'.length) (by omega) i _ _
              (by omega) (by omega)
          simp only [List.length_append, List.length_cons, List.length_nil,
            List.append_assoc, List.singleton_append] at h2
          rw [h2, hp, vsp_merge, if_neg (by omega), if_neg (by omega)]
    · rw [spl_insert_loop, dif_neg hlt]
      rw [List.drop_eq_nil_of_le (by omega), vsp_merge]

/-- The merge loop of `spl_insert_vsps`, started at `i = j = 0`, computes the
two-pointer merge of the SPL's prefixes into the record's prefixes. -/
theorem spl_insert_loop_eq_vsp_merge (pfxs prefixes : List spl_pfx) :
    spl_insert_loop pfxs (0, 0, prefixes) = vsp_merge pfxs prefixes := by
  have h := spl_insert_loop_invariant pfxs (pfxs.length + prefixes.length) 0 []
    prefixes (by omega) (by omega)
  simpa using h

/-! ## Properties of the eContent semantic validator -/

theorem pfxLt_of_chain'_cons : ∀ (l : List spl_pfx) (x : spl_pfx),
    List.Chain' pfxLt (x :: l) → ∀ b ∈ l, pfxLt x b := by
  intro l
  induction l with
  | nil =>
    intro x _ b hb
    simp at hb
  | cons y ys ih =>
    intro x h b hb
    rw [List.chain'_cons] at h
    obtain ⟨hxy, h'⟩ := h
    rcases List.mem_cons.mp hb with rfl | hb'
    · exact hxy
    · exact spl_pfx_cmp_lt_trans hxy (ih y h' b hb')

theorem chain'_pairwise_pfxLt : ∀ (l : List spl_pfx),
    List.Chain' pfxLt l → l.Pairwise pfxLt := by
  intro l
  induction l with
  | nil => intro _; exact List.Pairwise.nil
  | cons x xs ih =>
    intro h
    rw [List.pairwise_cons]
    refine ⟨pfxLt_of_chain'_cons xs x h, ih ?_⟩
    rw [List.chain'_cons'] at h
    exact h.2

theorem spl_pfx_cmp_same_afi (fi : afi) (x y : ip_addr) :
    spl_pfx_cmp ⟨fi, x⟩ ⟨fi, y⟩ = prefix_cmp fi x y := by
  simp [spl_pfx_cmp]

theorem pfxLt_v4_v6 (a b : spl_pfx) (ha : a.afi = afi.AFI_IPV4)
    (hb : b.afi = afi.AFI_IPV6) : pfxLt a b := by
  simp [pfxLt, spl_pfx_cmp, ha, hb, afi.toNat]

/-- Inversion of the inner block loop: on success every encoding decoded, the
produced entries are appended in order, all carry the block's family, and the
decoded prefixes (preceded by `prev_ip_addr` when set) increase strictly
under `prefix_cmp`. -/
theorem parse_block_prefixes_inv (fi : afi) :
    ∀ (ps : List (Option ip_addr)) (prev : Option ip_addr)
      (acc out : List spl_pfx),
      parse_block_prefixes fi prev ps acc = some out →
      ∃ ds : List ip_addr, ps = ds.map some ∧
        out = acc ++ ds.map (fun a => (⟨fi, a⟩ : spl_pfx)) ∧
        List.Chain' (fun x y => prefix_cmp fi x y = -1) (prev.toList ++ ds) := by
  intro ps
  induction ps with
  | nil =>
    intro prev acc out h
    rw [parse_block_prefixes] at h
    refine ⟨[], rfl, ?_, ?_⟩
    · simpa using (Option.some.injEq _ _ ▸ h).symm
    · cases prev <;> simp
  | cons o rest ih =>
    intro prev acc out h
    cases o with
    | none => rw [parse_block_prefixes] at h; exact absurd h (by simp)
    | some ip =>
      cases prev with
      | none =>
        rw [parse_block_prefixes] at h
        obtain ⟨ds, hps, hout, hch⟩ := ih (some ip) (acc ++ [⟨fi, ip⟩]) out h
        refine ⟨ip :: ds, by simp [hps], by simp [hout], ?_⟩
        simpa using hch
      | some pv =>
        rw [parse_block_prefixes] at h
        by_cases hcmp : prefix_cmp fi pv ip ≠ -1
        · rw [if_pos hcmp] at h
          exact absurd h (by simp)
        · rw [if_neg hcmp] at h
          push_neg at hcmp
          obtain ⟨ds, hps, hout, hch⟩ := ih (some ip) (acc ++ [⟨fi, ip⟩]) out h
          refine ⟨ip :: ds, by simp [hps], by simp [hout], ?_⟩
          simp only [Option.toList_some, List.singleton_append] at hch ⊢
          rw [List.chain'_cons]
          exact ⟨hcmp, hch⟩

/-- Inversion of one step of the outer block loop: a successful parse of
`b :: rest` means `b` was non-empty, under the ceiling, carried a recognized
family respecting the seen-counters, its prefixes decoded into `acc'`, and
the loop continued on `rest` with the counter for `b`'s family bumped. -/
theorem parse_blocks_cons_inv (b : SplBlock) (rest : List SplBlock)
    (acc out : List spl_pfx) (v4 v6 : Nat)
    (h : parse_blocks (b :: rest) acc v4 v6 = some out) :
    ∃ fi acc', b.afiTag = some fi ∧ b.addressPrefixes ≠ [] ∧
      acc.length + b.addressPrefixes.length < MAX_IP_SIZE ∧
      parse_block_prefixes fi none b.addressPrefixes acc = some acc' ∧
      ((fi = afi.AFI_IPV4 ∧ v4 = 0 ∧ v6 = 0 ∧
          parse_blocks rest acc' (v4 + 1) v6 = some out) ∨
       (fi = afi.AFI_IPV6 ∧ v6 = 0 ∧
          parse_blocks rest acc' v4 (v6 + 1) = some out)) := by
  rw [parse_blocks] at h
  by_cases h0 : b.addressPrefixes.length = 0
  · rw [if_pos h0] at h; exact absurd h (by simp)
  · rw [if_neg h0] at h
    by_cases hM : acc.length + b.addressPrefixes.length ≥ MAX_IP_SIZE
    · rw [if_pos hM] at h; exact absurd h (by simp)
    · rw [if_neg hM] at h
      cases htag : b.afiTag with
      | none => rw [htag] at h; exact absurd h (by simp)
      | some fi =>
        rw [htag] at h
        cases fi with
        | AFI_IPV4 =>
          dsimp only at h
          by_cases hv4 : 0 < v4
          · rw [if_pos hv4] at h; exact absurd h (by simp)
          · rw [if_neg hv4] at h
            by_cases hv6 : 0 < v6
            · rw [if_pos hv6] at h; exact absurd h (by simp)
            · rw [if_neg hv6] at h
              cases hin : parse_block_prefixes afi.AFI_IPV4 none b.addressPrefixes acc with
              | none => rw [hin] at h; exact absurd h (by simp)
              | some acc' =>
                rw [hin] at h
                exact ⟨afi.AFI_IPV4, acc', rfl,
                  fun he => h0 (by simp [he]), by omega, hin,
                  Or.inl ⟨rfl, by omega, by omega, h⟩⟩
        | AFI_IPV6 =>
          dsimp only at h
          by_cases hv6 : 0 < v6
          · rw [if_pos hv6] at h; exact absurd h (by simp)
          · rw [if_neg hv6] at h
            cases hin : parse_block_prefixes afi.AFI_IPV6 none b.addressPrefixes acc with
            | none => rw [hin] at h; exact absurd h (by simp)
            | some acc' =>
              rw [hin] at h
              exact ⟨afi.AFI_IPV6, acc', rfl,
                fun he => h0 (by simp [he]), by omega, hin,
                Or.inr ⟨rfl, by omega, h⟩⟩

theorem seg_afi_eq (fi : afi) (ds : List ip_addr) :
    ∀ p ∈ ds.map (fun a => (⟨fi, a⟩ : spl_pfx)), p.afi = fi := by
  intro p hp
  obtain ⟨a, _, rfl⟩ := List.mem_map.mp hp
  rfl

theorem seg_pairwise (fi : afi) (ds : List ip_addr)
    (h : List.Chain' (fun x y => prefix_cmp fi x y = -1) ds) :
    (ds.map (fun a => (⟨fi, a⟩ : spl_pfx))).Pairwise pfxLt := by
  apply chain'_pairwise_pfxLt
  rw [List.chain'_map]
  refine List.Chain'.imp ?_ h
  intro x y hxy
  have hs := spl_pfx_cmp_same_afi fi x y
  simp only [pfxLt, hs, hxy]
  omega

/-- On success, the validator's accumulated output stays sorted: the
counters describe the families already seen, and every new block extends the
list in order. -/
theorem parse_blocks_sorted :
    ∀ (bs : List SplBlock) (acc : List spl_pfx) (v4 v6 : Nat)
      (out : List spl_pfx),
      parse_blocks bs acc v4 v6 = some out →
      acc.Pairwise pfxLt →
      (v6 = 0 → ∀ p ∈ acc, p.afi = afi.AFI_IPV4) →
      (v4 = 0 → v6 = 0 → acc = []) →
      out.Pairwise pfxLt := by
  intro bs
  induction bs with
  | nil =>
    intro acc v4 v6 out h h1 _ _
    rw [parse_blocks] at h
    cases h
    exact h1
  | cons b rest ih =>
    intro acc v4 v6 out h h1 h2 h3
    obtain ⟨fi, acc', htag, hne, hmax, hin, hcase⟩ :=
      parse_blocks_cons_inv b rest acc out v4 v6 h
    obtain ⟨ds, hps, hacc', hch⟩ :=
      parse_block_prefixes_inv fi b.addressPrefixes none acc acc' hin
    simp only [Option.toList_none, List.nil_append] at hch
    rcases hcase with ⟨hfi, hv4, hv6, hrest⟩ | ⟨hfi, hv6, hrest⟩
    · subst hfi
      have hacc : acc = [] := h3 hv4 hv6
      subst hacc
      rw [List.nil_append] at hacc'
      subst hacc'
      refine ih _ _ _ _ hrest (seg_pairwise _ ds hch) ?_ (by omega)
      intro _ p hp
      exact seg_afi_eq _ ds p hp
    · subst hfi
      subst hacc'
      have haccv4 : ∀ p ∈ acc, p.afi = afi.AFI_IPV4 := h2 hv6
      refine ih _ _ _ _ hrest ?_ (by omega) (by omega)
      rw [List.pairwise_append]
      refine ⟨h1, seg_pairwise _ ds hch, ?_⟩
      intro a ha b2 hb2
      exact pfxLt_v4_v6 a b2 (haccv4 a ha) (seg_afi_eq _ ds b2 hb2)

/-- On success every block contributed exactly its number of prefix
encodings. -/
theorem parse_blocks_length :
    ∀ (bs : List SplBlock) (acc : List spl_pfx) (v4 v6 : Nat)
      (out : List spl_pfx),
      parse_blocks bs acc v4 v6 = some out →
      out.length = acc.length + (bs.map (fun b => b.addressPrefixes.length)).sum := by
  intro bs
  induction bs with
  | nil =>
    intro acc v4 v6 out h
    rw [parse_blocks] at h
    cases h
    simp
  | cons b rest ih =>
    intro acc v4 v6 out h
    obtain ⟨fi, acc', htag, hne, hmax, hin, hcase⟩ :=
      parse_blocks_cons_inv b rest acc out v4 v6 h
    obtain ⟨ds, hps, hacc', hch⟩ :=
      parse_block_prefixes_inv fi b.addressPrefixes none acc acc' hin
    have hlen : acc'.length = acc.length + b.addressPrefixes.length := by
      rw [hacc', hps]
      simp
    have hout : out.length = acc'.length +
        (rest.map (fun b => b.addressPrefixes.length)).sum := by
      rcases hcase with ⟨_, _, _, hrest⟩ | ⟨_, _, hrest⟩ <;> exact ih _ _ _ _ hrest
    rw [hout, hlen]
    simp only [List.map_cons, List.sum_cons]
    omega

/-- On success the accumulated count stays strictly below the ceiling. -/
theorem parse_blocks_lt_max :
    ∀ (bs : List SplBlock) (acc : List spl_pfx) (v4 v6 : Nat)
      (out : List spl_pfx),
      parse_blocks bs acc v4 v6 = some out →
      acc.length < MAX_IP_SIZE → out.length < MAX_IP_SIZE := by
  intro bs
  induction bs with
  | nil =>
    intro acc v4 v6 out h hlt
    rw [parse_blocks] at h
    cases h
    exact hlt
  | cons b rest ih =>
    intro acc v4 v6 out h _
    obtain ⟨fi, acc', htag, hne, hmax, hin, hcase⟩ :=
      parse_blocks_cons_inv b rest acc out v4 v6 h
    obtain ⟨ds, hps, hacc', hch⟩ :=
      parse_block_prefixes_inv fi b.addressPrefixes none acc acc' hin
    have hlen : acc'.length = acc.length + b.addressPrefixes.length := by
      rw [hacc', hps]
      simp
    have hlt' : acc'.length < MAX_IP_SIZE := by omega
    rcases hcase with ⟨_, _, _, hrest⟩ | ⟨_, _, hrest⟩ <;>
      exact ih _ _ _ _ hrest hlt'

/-- After processing an IPv6 block a successful run processes no further
blocks at all. -/
theorem parse_blocks_stop_after_v6 :
    ∀ (bs : List SplBlock) (acc : List spl_pfx) (v4 v6 : Nat)
      (out : List spl_pfx),
      parse_blocks bs acc v4 v6 = some out → 0 < v6 → bs = [] := by
  intro bs
  cases bs with
  | nil => intro _ _ _ _ _ _; rfl
  | cons b rest =>
    intro acc v4 v6 out h hv6
    obtain ⟨fi, acc', _, _, _, _, hcase⟩ :=
      parse_blocks_cons_inv b rest acc out v4 v6 h
    rcases hcase with ⟨_, _, hz, _⟩ | ⟨_, hz, _⟩ <;> omega

/-- Once an IPv4 block has been processed, a successful run sees no further
IPv4-tagged block. -/
theorem parse_blocks_no_v4_again :
    ∀ (bs : List SplBlock) (acc : List spl_pfx) (v4 v6 : Nat)
      (out : List spl_pfx),
      parse_blocks bs acc v4 v6 = some out → 0 < v4 →
      ∀ b ∈ bs, b.afiTag ≠ some afi.AFI_IPV4 := by
  intro bs
  induction bs with
  | nil => intro _ _ _ _ _ _ b hb; simp at hb
  | cons b rest ih =>
    intro acc v4 v6 out h hv4 b2 hb2
    obtain ⟨fi, acc', htag, _, _, _, hcase⟩ :=
      parse_blocks_cons_inv b rest acc out v4 v6 h
    rcases hcase with ⟨_, hz, _, _⟩ | ⟨hfi, _, hrest⟩
    · omega
    · rcases List.mem_cons.mp hb2 with rfl | hmem
      · rw [htag, hfi]
        simp
      · exact ih _ _ _ _ hrest hv4 b2 hmem

/-- On success every block was non-empty, carried a recognized family tag,
and all its encodings decoded into a strictly `prefix_cmp`-increasing run. -/
theorem parse_blocks_block_facts :
    ∀ (bs : List SplBlock) (acc : List spl_pfx) (v4 v6 : Nat)
      (out : List spl_pfx),
      parse_blocks bs acc v4 v6 = some out →
      ∀ b ∈ bs, b.addressPrefixes ≠ [] ∧
        ∃ fi ds, b.afiTag = some fi ∧ b.addressPrefixes = ds.map some ∧
          List.Chain' (fun x y => prefix_cmp fi x y = -1) ds := by
  intro bs
  induction bs with
  | nil => intro _ _ _ _ _ b hb; simp at hb
  | cons b rest ih =>
    intro acc v4 v6 out h b2 hb2
    obtain ⟨fi, acc', htag, hne, hmax, hin, hcase⟩ :=
      parse_blocks_cons_inv b rest acc out v4 v6 h
    rcases List.mem_cons.mp hb2 with rfl | hmem
    · obtain ⟨ds, hps, _, hch⟩ :=
        parse_block_prefixes_inv fi b2.addressPrefixes none acc acc' hin
      simp only [Option.toList_none, List.nil_append] at hch
      exact ⟨hne, fi, ds, htag, hps, hch⟩
    · rcases hcase with ⟨_, _, _, hrest⟩ | ⟨_, _, hrest⟩ <;>
        exact ih _ _ _ _ hrest b2 hmem

/-- Splitting a successful run: the prefix of the block list is fully
processed first, accumulating exactly its prefix counts. -/
theorem parse_blocks_append_inv :
    ∀ (bs1 bs2 : List SplBlock) (acc : List spl_pfx) (v4 v6 : Nat)
      (out : List spl_pfx),
      parse_blocks (bs1 ++ bs2) acc v4 v6 = some out →
      ∃ (acc1 : List spl_pfx) (v4' v6' : Nat),
        parse_blocks bs2 acc1 v4' v6' = some out ∧
        acc1.length = acc.length +
          (bs1.map (fun b => b.addressPrefixes.length)).sum := by
  intro bs1
  induction bs1 with
  | nil =>
    intro bs2 acc v4 v6 out h
    exact ⟨acc, v4, v6, by simpa using h, by simp⟩
  | cons b rest ih =>
    intro bs2 acc v4 v6 out h
    rw [List.cons_append] at h
    obtain ⟨fi, acc', htag, hne, hmax, hin, hcase⟩ :=
      parse_blocks_cons_inv b (rest ++ bs2) acc out v4 v6 h
    obtain ⟨ds, hps, hacc', _⟩ :=
      parse_block_prefixes_inv fi b.addressPrefixes none acc acc' hin
    have hlen : acc'.length = acc.length + b.addressPrefixes.length := by
      rw [hacc', hps]
      simp
    rcases hcase with ⟨_, _, _, hrest⟩ | ⟨_, _, hrest⟩ <;>
    · obtain ⟨acc1, v4', v6', hp2, hl2⟩ := ih bs2 _ _ _ _ hrest
      refine ⟨acc1, v4', v6', hp2, ?_⟩
      rw [hl2, hlen]
      simp only [List.map_cons, List.sum_cons]
      omega

/-- A successful run never has an IPv6-tagged block preceding an IPv4-tagged
block. -/
theorem parse_blocks_no_v6_before_v4 :
    ∀ (bs : List SplBlock) (acc : List spl_pfx) (v4 v6 : Nat)
      (out : List spl_pfx),
      parse_blocks bs acc v4 v6 = some out →
      ∀ (k l : Nat) (bi bj : SplBlock), k < l →
        bs[k]? = some bi → bs[l]? = some bj →
        bi.afiTag = some afi.AFI_IPV6 → bj.afiTag = some afi.AFI_IPV4 →
        False := by
  intro bs
  induction bs with
  | nil => intro _ _ _ _ _ k l bi bj _ hk _ _ _; simp at hk
  | cons b rest ih =>
    intro acc v4 v6 out h k l bi bj hkl hk hl hv6 hv4
    obtain ⟨fi, acc', htag, _, _, _, hcase⟩ :=
      parse_blocks_cons_inv b rest acc out v4 v6 h
    cases k with
    | zero =>
      have hbi : bi = b := by simpa using hk.symm
      subst hbi
      rw [htag] at hv6
      have hfi : fi = afi.AFI_IPV6 := by simpa using hv6
      subst hfi
      rcases hcase with ⟨hfi, _, _, _⟩ | ⟨_, _, hrest⟩
      · exact absurd hfi (by simp)
      · have hrest_nil : rest = [] :=
          parse_blocks_stop_after_v6 rest _ _ _ _ hrest (by omega)
        subst hrest_nil
        cases l with
        | zero => omega
        | succ l' => simp at hl
    | succ k' =>
      cases l with
      | zero => omega
      | succ l' =>
        simp only [List.getElem?_cons_succ] at hk hl
        rcases hcase with ⟨_, _, _, hrest⟩ | ⟨_, _, hrest⟩ <;>
          exact ih _ _ _ _ hrest k' l' bi bj (by omega) hk hl hv6 hv4

/-- A successful run never sees the same family tag on two distinct
blocks. -/
theorem parse_blocks_distinct_tags :
    ∀ (bs : List SplBlock) (acc : List spl_pfx) (v4 v6 : Nat)
      (out : List spl_pfx),
      parse_blocks bs acc v4 v6 = some out →
      ∀ (k l : Nat) (bi bj : SplBlock) (fi : afi), k < l →
        bs[k]? = some bi → bs[l]? = some bj →
        bi.afiTag = some fi → bj.afiTag ≠ some fi := by
  intro bs
  induction bs with
  | nil => intro _ _ _ _ _ k l bi bj fi _ hk _ _; simp at hk
  | cons b rest ih =>
    intro acc v4 v6 out h k l bi bj fi hkl hk hl htagi
    obtain ⟨fi0, acc', htag, _, _, _, hcase⟩ :=
      parse_blocks_cons_inv b rest acc out v4 v6 h
    cases k with
    | zero =>
      have hbi : bi = b := by simpa using hk.symm
      subst hbi
      rw [htag] at htagi
      have hfi : fi0 = fi := by simpa using htagi
      subst hfi
      cases l with
      | zero => omega
      | succ l' =>
        simp only [List.getElem?_cons_succ] at hl
        have hbjmem : bj ∈ rest := List.getElem?_mem hl
        rcases hcase with ⟨hfi, _, _, hrest⟩ | ⟨hfi, _, hrest⟩
        · subst hfi
          exact parse_blocks_no_v4_again rest _ _ _ _ hrest (by omega) bj hbjmem
        · subst hfi
          have hrest_nil : rest = [] :=
            parse_blocks_stop_after_v6 rest _ _ _ _ hrest (by omega)
          subst hrest_nil
          simp at hl
    | succ k' =>
      cases l with
      | zero => omega
      | succ l' =>
        simp only [List.getElem?_cons_succ] at hk hl
        rcases hcase with ⟨_, _, _, hrest⟩ | ⟨_, _, hrest⟩ <;>
          exact ih _ _ _ _ hrest k' l' bi bj fi (by omega) hk hl htagi

theorem spl_parse_econtent_some_inv (asid : Nat) (bs : List SplBlock)
    (a : Nat) (pfxs : List spl_pfx)
    (h : spl_parse_econtent (some (some asid, bs)) = some (a, pfxs)) :
    a = asid ∧ ¬ 2 < bs.length ∧ parse_blocks bs [] 0 0 = some pfxs := by
  rw [spl_parse_econtent] at h
  by_cases hlen : 2 < bs.length
  · rw [if_pos hlen] at h
    exact absurd h (by simp)
  · rw [if_neg hlen] at h
    cases hpb : parse_blocks bs [] 0 0 with
    | none => rw [hpb] at h; exact absurd h (by simp)
    | some p =>
      rw [hpb] at h
      have := Option.some.injEq _ _ ▸ h
      obtain ⟨h1, h2⟩ := Prod.mk.injEq .. ▸ this
      exact ⟨h1.symm, hlen, congrArg some h2⟩

/-! ## Properties of the object builder -/

/-- The policy verdict only lands in the `valid` field: `spl_parse` with
verdict `b` is the `valid := b` relabelling of `spl_parse` with verdict
`true`; in particular acceptance never depends on the verdict. -/
theorem spl_parse_valid_map (t : Nat)
    (cms : Option (Option (Option Nat × List SplBlock) × Int)) (x : X509View)
    (ee : Option EECert) (b : Bool) :
    spl_parse t cms x ee b =
      (spl_parse t cms x ee true).map (fun s => { s with valid := b }) := by
  rcases cms with _ | ⟨ec, st⟩
  · rfl
  rcases x with ⟨aia, aki, sia, ski, nb, na, inh⟩
  cases aia with
  | none => rfl
  | some aiav =>
  cases aki with
  | none => rfl
  | some akiv =>
  cases sia with
  | none => rfl
  | some siav =>
  cases ski with
  | none => rfl
  | some skiv =>
  cases haiav : aiav with
  | none => simp [spl_parse]
  | some a0 =>
  cases hakiv : akiv with
  | none => simp [spl_parse]
  | some a1 =>
  cases hsiav : siav with
  | none => simp [spl_parse]
  | some a2 =>
  cases hskiv : skiv with
  | none => simp [spl_parse]
  | some a3 =>
  cases nb with
  | none => simp [spl_parse]
  | some nbv =>
  cases na with
  | none => simp [spl_parse]
  | some nav =>
  cases hec : spl_parse_econtent ec with
  | none => simp [spl_parse, hec]
  | some pr =>
  obtain ⟨asid, pfxs⟩ := pr
  cases inh with
  | true => simp [spl_parse, hec]
  | false =>
  cases ee with
  | none => simp [spl_parse, hec]
  | some cert =>
  by_cases h1 : cert.asz = 0
  · simp [spl_parse, hec, h1]
  · by_cases h2 : 0 < cert.ipsz
    · simp [spl_parse, hec, h1, h2]
    · simp [spl_parse, hec, h1, h2]

/-! ## Properties of the binary codec -/

theorem io_read_pfxs_map (l : List spl_pfx) (rest : List IoTok) :
    io_read_pfxs l.length (l.map IoTok.pfx ++ rest) = some (l, rest) := by
  induction l with
  | nil => rfl
  | cons p ps ih => simp [io_read_pfxs, ih]

/-! ## Properties of the VSP aggregation engine -/

theorem insert_vsp_length (prefixes : List spl_pfx) (j : Nat) (p : spl_pfx)
    (hj : j ≤ prefixes.length) :
    (insert_vsp prefixes j p).length = prefixes.length + 1 := by
  simp only [insert_vsp, List.length_append, List.length_take, List.length_cons,
    List.length_drop]
  omega

/-- The record stored for the SPL's AS id after `spl_insert_vsps` when a
record already existed: metadata superseded exactly when the incoming
expiration is strictly later, prefixes merged by the two-pointer walk. -/
theorem spl_insert_vsps_lookup_found (tree : Nat → Option vsp) (spl : Spl)
    (rp : Option Nat) (found : vsp) (hf : tree spl.asid = some found) :
    ((spl_insert_vsps tree spl rp).1) spl.asid = some
      { asid := found.asid,
        talid := if found.expires < spl.expires then spl.talid else found.talid,
        repoid := if found.expires < spl.expires then
            (match rp with | some r => r | none => 0) else found.repoid,
        expires := if found.expires < spl.expires then spl.expires
          else found.expires,
        prefixes := vsp_merge spl.pfxs found.prefixes } := by
  simp only [spl_insert_vsps]
  rw [hf]
  simp only [if_pos rfl, spl_insert_loop_eq_vsp_merge]
  by_cases hsup : found.expires < spl.expires <;> simp [hsup]

/-- The record stored for the SPL's AS id after `spl_insert_vsps` when no
record existed: the candidate's metadata with the merged (incoming)
prefixes. -/
theorem spl_insert_vsps_lookup_new (tree : Nat → Option vsp) (spl : Spl)
    (rp : Option Nat) (hf : tree spl.asid = none) :
    ((spl_insert_vsps tree spl rp).1) spl.asid = some
      { asid := spl.asid, talid := spl.talid,
        repoid := match rp with | some r => r | none => 0,
        expires := spl.expires,
        prefixes := vsp_merge spl.pfxs [] } := by
  simp only [spl_insert_vsps]
  rw [hf]
  simp [spl_insert_loop_eq_vsp_merge]

/-- Any other AS id is untouched by `spl_insert_vsps`. -/
theorem spl_insert_vsps_lookup_other (tree : Nat → Option vsp) (spl : Spl)
    (rp : Option Nat) (a : Nat) (ha : a ≠ spl.asid) :
    ((spl_insert_vsps tree spl rp).1) a = tree a := by
  simp only [spl_insert_vsps]
  cases hf : tree spl.asid <;> simp [hf, ha]

/-- The statistics events of a merge into an existing record. -/
theorem spl_insert_vsps_events_found (tree : Nat → Option vsp) (spl : Spl)
    (rp : Option Nat) (found : vsp) (hf : tree spl.asid = some found) :
    (spl_insert_vsps tree spl rp).2 =
      (if found.expires < spl.expires then
        [⟨some found.repoid, found.talid, stype.STYPE_DEC_UNIQUE⟩,
         ⟨rp, spl.talid, stype.STYPE_UNIQUE⟩]
       else []) ++ [⟨rp, spl.talid, stype.STYPE_TOTAL⟩] := by
  simp only [spl_insert_vsps]
  rw [hf]

/-- The statistics events of a merge creating a fresh record. -/
theorem spl_insert_vsps_events_new (tree : Nat → Option vsp) (spl : Spl)
    (rp : Option Nat) (hf : tree spl.asid = none) :
    (spl_insert_vsps tree spl rp).2 =
      [⟨rp, spl.talid, stype.STYPE_UNIQUE⟩,
       ⟨rp, spl.talid, stype.STYPE_TOTAL⟩] := by
  simp only [spl_insert_vsps]
  rw [hf]

/-! ## The claims -/

/-- C5: whenever the eContent semantic validator `spl_parse_econtent`
succeeds, the flattened prefix list it produces is strictly increasing per
the grouped comparator `spl_pfx_cmp` (so the IPv4 block fully precedes the
IPv6 block, and within each family consecutive entries strictly increase per
`prefix_cmp`). -/
theorem C5_econtent_sorted (ec : Option (Option Nat × List SplBlock))
    (a : Nat) (pfxs : List spl_pfx)
    (h : spl_parse_econtent ec = some (a, pfxs)) :
    pfxs.Pairwise pfxLt ∧ List.Chain' (fun x y => spl_pfx_cmp x y < 0) pfxs := by
  rcases ec with _ | ⟨asidOpt, bs⟩
  · rw [spl_parse_econtent] at h
    exact absurd h (by simp)
  · cases asidOpt with
    | none =>
      rw [spl_parse_econtent] at h
      exact absurd h (by simp)
    | some asid =>
      obtain ⟨_, _, hpb⟩ := spl_parse_econtent_some_inv asid bs a pfxs h
      have hpw : pfxs.Pairwise pfxLt :=
        parse_blocks_sorted bs [] 0 0 pfxs hpb List.Pairwise.nil
          (by intro _ p hp; simp at hp) (by intro _ _; rfl)
      exact ⟨hpw, hpw.chain'⟩

/-- Witness for C5 at a concrete accepted object: an IPv4 block holding
10.0.0.0/8 and 10.1.0.0/16 followed by an IPv6 block holding 2000::/12. -/
theorem C5_econtent_sorted_witness :
    ([pfxA, pfxB, pfxD].Pairwise pfxLt) ∧
      List.Chain' (fun x y => spl_pfx_cmp x y < 0) [pfxA, pfxB, pfxD] :=
  C5_econtent_sorted
    (some (some 64496,
      [⟨some afi.AFI_IPV4, [some (mkV4 10 0 0 0 8), some (mkV4 10 1 0 0 16)]⟩,
       ⟨some afi.AFI_IPV6, [some (mkV6 32 12)]⟩]))
    64496 [pfxA, pfxB, pfxD] (by rfl)

/-- C7: the accumulated prefix count is kept under `MAX_IP_SIZE`: a block
whose prefixes would reach or exceed the ceiling (on top of everything
accumulated before it) fails the object, and any successful validation
returns strictly fewer than `MAX_IP_SIZE` prefixes. -/
theorem C7_prefix_ceiling :
    (∀ (aOpt : Option Nat) (bs1 : List SplBlock) (blk : SplBlock)
       (bs2 : List SplBlock),
       MAX_IP_SIZE ≤ (bs1.map (fun b => b.addressPrefixes.length)).sum +
         blk.addressPrefixes.length →
       spl_parse_econtent (some (aOpt, bs1 ++ blk :: bs2)) = none) ∧
    (∀ (ec : Option (Option Nat × List SplBlock)) (a : Nat)
       (pfxs : List spl_pfx),
       spl_parse_econtent ec = some (a, pfxs) → pfxs.length < MAX_IP_SIZE) := by
  constructor
  · intro aOpt bs1 blk bs2 hover
    cases hres : spl_parse_econtent (some (aOpt, bs1 ++ blk :: bs2)) with
    | none => rfl
    | some pr =>
      exfalso
      obtain ⟨a, pfxs⟩ := pr
      cases aOpt with
      | none =>
        rw [spl_parse_econtent] at hres
        exact absurd hres (by simp)
      | some asid =>
        obtain ⟨_, _, hpb⟩ := spl_parse_econtent_some_inv asid _ a pfxs hres
        obtain ⟨acc1, v4', v6', hp2, hl2⟩ :=
          parse_blocks_append_inv bs1 (blk :: bs2) [] 0 0 pfxs hpb
        obtain ⟨fi, acc', _, _, hmax, _, _⟩ :=
          parse_blocks_cons_inv blk bs2 acc1 pfxs v4' v6' hp2
        simp only [List.length_nil] at hl2
        omega
  · intro ec a pfxs h
    rcases ec with _ | ⟨asidOpt, bs⟩
    · rw [spl_parse_econtent] at h
      exact absurd h (by simp)
    · cases asidOpt with
      | none =>
        rw [spl_parse_econtent] at h
        exact absurd h (by simp)
      | some asid =>
        obtain ⟨_, _, hpb⟩ := spl_parse_econtent_some_inv asid bs a pfxs h
        refine parse_blocks_lt_max bs [] 0 0 pfxs hpb ?_
        simp [MAX_IP_SIZE]

/-- Witness for C7: a single IPv4 block with `MAX_IP_SIZE` prefix encodings
is rejected, and the concrete accepted object of the C5 witness stays under
the ceiling. -/
theorem C7_prefix_ceiling_witness :
    spl_parse_econtent (some (some 64496,
      [] ++ (⟨some afi.AFI_IPV4,
        List.replicate MAX_IP_SIZE (some (mkV4 10 0 0 0 8))⟩ : SplBlock) :: [])) =
      none ∧
    ([pfxA, pfxB, pfxD] : List spl_pfx).length < MAX_IP_SIZE := by
  constructor
  · exact C7_prefix_ceiling.1 (some 64496) []
      ⟨some afi.AFI_IPV4, List.replicate MAX_IP_SIZE (some (mkV4 10 0 0 0 8))⟩
      [] (by
        have h0 : (SplBlock.mk (some afi.AFI_IPV4)
              (List.replicate MAX_IP_SIZE (some (mkV4 10 0 0 0 8)))).addressPrefixes
            = List.replicate MAX_IP_SIZE (some (mkV4 10 0 0 0 8)) := rfl
        rw [h0, List.length_replicate]
        simp only [List.map_nil, List.sum_nil]
        omega)
  · exact C7_prefix_ceiling.2
      (some (some 64496,
        [⟨some afi.AFI_IPV4, [some (mkV4 10 0 0 0 8), some (mkV4 10 1 0 0 16)]⟩,
         ⟨some afi.AFI_IPV6, [some (mkV6 32 12)]⟩]))
      64496 [pfxA, pfxB, pfxD] (by rfl)

theorem spl_parse_econtent_inv (aOpt : Option Nat) (bs : List SplBlock)
    (a : Nat) (pfxs : List spl_pfx)
    (h : spl_parse_econtent (some (aOpt, bs)) = some (a, pfxs)) :
    aOpt = some a ∧ ¬ 2 < bs.length ∧ parse_blocks bs [] 0 0 = some pfxs := by
  cases aOpt with
  | none =>
    rw [spl_parse_econtent] at h
    exact absurd h (by simp)
  | some asid =>
    obtain ⟨h1, h2, h3⟩ := spl_parse_econtent_some_inv asid bs a pfxs h
    exact ⟨by rw [h1], h2, h3⟩

/-- An eContent failure propagates: `spl_parse` returns no object. -/
theorem spl_parse_none_of_econtent_none (t : Nat)
    (ec : Option (Option Nat × List SplBlock)) (st : Int) (x : X509View)
    (ee : Option EECert) (b : Bool) (hec : spl_parse_econtent ec = none) :
    spl_parse t (some (ec, st)) x ee b = none := by
  rcases x with ⟨aia, aki, sia, ski, nb, na, inh⟩
  cases aia with
  | none => rfl
  | some aiav =>
  cases aki with
  | none => rfl
  | some akiv =>
  cases sia with
  | none => rfl
  | some siav =>
  cases ski with
  | none => rfl
  | some skiv =>
  cases aiav with
  | none => simp [spl_parse]
  | some a0 =>
  cases akiv with
  | none => simp [spl_parse]
  | some a1 =>
  cases siav with
  | none => simp [spl_parse]
  | some a2 =>
  cases skiv with
  | none => simp [spl_parse]
  | some a3 =>
  cases nb with
  | none => simp [spl_parse]
  | some nbv =>
  cases na with
  | none => simp [spl_parse]
  | some nav =>
  simp [spl_parse, hec]

/-- A disallowed end-entity resource certificate (empty AS resources or any
IP resources) propagates: `spl_parse` returns no object. -/
theorem spl_parse_none_of_bad_ee (t : Nat)
    (cms : Option (Option (Option Nat × List SplBlock) × Int)) (x : X509View)
    (c : EECert) (b : Bool) (hc : c.asz = 0 ∨ 0 < c.ipsz) :
    spl_parse t cms x (some c) b = none := by
  rcases cms with _ | ⟨ec, st⟩
  · rfl
  rcases x with ⟨aia, aki, sia, ski, nb, na, inh⟩
  cases aia with
  | none => rfl
  | some aiav =>
  cases aki with
  | none => rfl
  | some akiv =>
  cases sia with
  | none => rfl
  | some siav =>
  cases ski with
  | none => rfl
  | some skiv =>
  cases aiav with
  | none => simp [spl_parse]
  | some a0 =>
  cases akiv with
  | none => simp [spl_parse]
  | some a1 =>
  cases siav with
  | none => simp [spl_parse]
  | some a2 =>
  cases skiv with
  | none => simp [spl_parse]
  | some a3 =>
  cases nb with
  | none => simp [spl_parse]
  | some nbv =>
  cases na with
  | none => simp [spl_parse]
  | some nav =>
  cases hec : spl_parse_econtent ec with
  | none => simp [spl_parse, hec]
  | some pr =>
  obtain ⟨asid, pfxs⟩ := pr
  cases inh with
  | true => simp [spl_parse, hec]
  | false =>
    rcases hc with hc | hc
    · simp [spl_parse, hec, hc]
    · by_cases h1 : c.asz = 0
      · simp [spl_parse, hec, h1]
      · simp [spl_parse, hec, h1, hc]

theorem econtent_none_of_three_blocks (aOpt : Option Nat) (bs : List SplBlock)
    (h : 2 < bs.length) : spl_parse_econtent (some (aOpt, bs)) = none := by
  cases aOpt with
  | none => rfl
  | some a => simp [spl_parse_econtent, h]

theorem econtent_none_of_v6_before_v4 (aOpt : Option Nat) (bs : List SplBlock)
    (k l : Nat) (bi bj : SplBlock) (hkl : k < l) (hk : bs[k]? = some bi)
    (hl : bs[l]? = some bj) (hv6 : bi.afiTag = some afi.AFI_IPV6)
    (hv4 : bj.afiTag = some afi.AFI_IPV4) :
    spl_parse_econtent (some (aOpt, bs)) = none := by
  cases hres : spl_parse_econtent (some (aOpt, bs)) with
  | none => rfl
  | some pr =>
    exfalso
    obtain ⟨a, pfxs⟩ := pr
    obtain ⟨_, _, hpb⟩ := spl_parse_econtent_inv aOpt bs a pfxs hres
    exact parse_blocks_no_v6_before_v4 bs [] 0 0 pfxs hpb k l bi bj hkl hk hl
      hv6 hv4

theorem econtent_none_of_empty_block (aOpt : Option Nat) (bs : List SplBlock)
    (b0 : SplBlock) (hmem : b0 ∈ bs) (hemp : b0.addressPrefixes = []) :
    spl_parse_econtent (some (aOpt, bs)) = none := by
  cases hres : spl_parse_econtent (some (aOpt, bs)) with
  | none => rfl
  | some pr =>
    exfalso
    obtain ⟨a, pfxs⟩ := pr
    obtain ⟨_, _, hpb⟩ := spl_parse_econtent_inv aOpt bs a pfxs hres
    exact (parse_blocks_block_facts bs [] 0 0 pfxs hpb b0 hmem).1 hemp

theorem econtent_none_of_bad_sorting (aOpt : Option Nat) (bs : List SplBlock)
    (b0 : SplBlock) (fi : afi) (k : Nat) (p1 p2 : ip_addr) (hmem : b0 ∈ bs)
    (htag : b0.afiTag = some fi)
    (hk : b0.addressPrefixes[k]? = some (some p1))
    (hk1 : b0.addressPrefixes[k + 1]? = some (some p2))
    (hbad : prefix_cmp fi p1 p2 ≠ -1) :
    spl_parse_econtent (some (aOpt, bs)) = none := by
  cases hres : spl_parse_econtent (some (aOpt, bs)) with
  | none => rfl
  | some pr =>
    exfalso
    obtain ⟨a, pfxs⟩ := pr
    obtain ⟨_, _, hpb⟩ := spl_parse_econtent_inv aOpt bs a pfxs hres
    obtain ⟨_, fi', ds, htag', hmap, hch⟩ :=
      parse_blocks_block_facts bs [] 0 0 pfxs hpb b0 hmem
    rw [htag] at htag'
    have hfi : fi = fi' := by simpa using htag'
    subst hfi
    rw [hmap] at hk hk1
    rw [List.getElem?_map] at hk hk1
    have hdk : ds[k]? = some p1 := by
      cases hds : ds[k]? with
      | none => rw [hds] at hk; simp at hk
      | some v => rw [hds] at hk; simpa using hk
    have hdk1 : ds[k + 1]? = some p2 := by
      cases hds : ds[k + 1]? with
      | none => rw [hds] at hk1; simp at hk1
      | some v => rw [hds] at hk1; simpa using hk1
    have hlt1 : k + 1 < ds.length := (List.getElem?_eq_some.mp hdk1).1
    have hg := (List.chain'_iff_get.mp hch) k (by omega)
    have he1 : ds.get ⟨k, by omega⟩ = p1 := by
      have := (List.getElem?_eq_some.mp hdk).2
      simpa [List.get_eq_getElem] using this
    have he2 : ds.get ⟨k + 1, by omega⟩ = p2 := by
      have := (List.getElem?_eq_some.mp hdk1).2
      simpa [List.get_eq_getElem] using this
    rw [he1, he2] at hg
    exact hbad hg

theorem econtent_none_of_dup_tags (aOpt : Option Nat) (bs : List SplBlock)
    (k l : Nat) (bi bj : SplBlock) (fi : afi) (hkl : k < l)
    (hk : bs[k]? = some bi) (hl : bs[l]? = some bj)
    (hti : bi.afiTag = some fi) (htj : bj.afiTag = some fi) :
    spl_parse_econtent (some (aOpt, bs)) = none := by
  cases hres : spl_parse_econtent (some (aOpt, bs)) with
  | none => rfl
  | some pr =>
    exfalso
    obtain ⟨a, pfxs⟩ := pr
    obtain ⟨_, _, hpb⟩ := spl_parse_econtent_inv aOpt bs a pfxs hres
    exact parse_blocks_distinct_tags bs [] 0 0 pfxs hpb k l bi bj fi hkl hk hl
      hti htj

/-- C6: object validation (`spl_parse`, including the eContent validator it
runs) rejects — returning no object at all — when: (1) there are 3
address-family blocks; (2) an IPv6 block precedes an IPv4 block; (3) a block
is empty; (4) a block has two consecutive entries whose second does not
strictly exceed the first; (5) two blocks carry the same family tag; (6) the
end-entity certificate has an IP-resources extension; (7) its AS-resources
extension is empty. -/
theorem C6_rejection_cases :
    (∀ (t : Nat) (aOpt : Option Nat) (bs : List SplBlock) (st : Int)
       (x : X509View) (ee : Option EECert) (b : Bool), bs.length = 3 →
       spl_parse t (some (some (aOpt, bs), st)) x ee b = none) ∧
    (∀ (t : Nat) (aOpt : Option Nat) (bs : List SplBlock) (st : Int)
       (x : X509View) (ee : Option EECert) (b : Bool) (k l : Nat)
       (bi bj : SplBlock), k < l → bs[k]? = some bi → bs[l]? = some bj →
       bi.afiTag = some afi.AFI_IPV6 → bj.afiTag = some afi.AFI_IPV4 →
       spl_parse t (some (some (aOpt, bs), st)) x ee b = none) ∧
    (∀ (t : Nat) (aOpt : Option Nat) (bs : List SplBlock) (st : Int)
       (x : X509View) (ee : Option EECert) (b : Bool) (b0 : SplBlock),
       b0 ∈ bs → b0.addressPrefixes = [] →
       spl_parse t (some (some (aOpt, bs), st)) x ee b = none) ∧
    (∀ (t : Nat) (aOpt : Option Nat) (bs : List SplBlock) (st : Int)
       (x : X509View) (ee : Option EECert) (b : Bool) (b0 : SplBlock)
       (fi : afi) (k : Nat) (p1 p2 : ip_addr), b0 ∈ bs →
       b0.afiTag = some fi → b0.addressPrefixes[k]? = some (some p1) →
       b0.addressPrefixes[k + 1]? = some (some p2) →
       prefix_cmp fi p1 p2 ≠ -1 →
       spl_parse t (some (some (aOpt, bs), st)) x ee b = none) ∧
    (∀ (t : Nat) (aOpt : Option Nat) (bs : List SplBlock) (st : Int)
       (x : X509View) (ee : Option EECert) (b : Bool) (k l : Nat)
       (bi bj : SplBlock) (fi : afi), k < l → bs[k]? = some bi →
       bs[l]? = some bj → bi.afiTag = some fi → bj.afiTag = some fi →
       spl_parse t (some (some (aOpt, bs), st)) x ee b = none) ∧
    (∀ (t : Nat) (cms : Option (Option (Option Nat × List SplBlock) × Int))
       (x : X509View) (c : EECert) (b : Bool), 0 < c.ipsz →
       spl_parse t cms x (some c) b = none) ∧
    (∀ (t : Nat) (cms : Option (Option (Option Nat × List SplBlock) × Int))
       (x : X509View) (c : EECert) (b : Bool), c.asz = 0 →
       spl_parse t cms x (some c) b = none) := by
  refine ⟨?_, ?_, ?_, ?_, ?_, ?_, ?_⟩
  · intro t aOpt bs st x ee b hlen
    exact spl_parse_none_of_econtent_none t _ st x ee b
      (econtent_none_of_three_blocks aOpt bs (by omega))
  · intro t aOpt bs st x ee b k l bi bj hkl hk hl hv6 hv4
    exact spl_parse_none_of_econtent_none t _ st x ee b
      (econtent_none_of_v6_before_v4 aOpt bs k l bi bj hkl hk hl hv6 hv4)
  · intro t aOpt bs st x ee b b0 hmem hemp
    exact spl_parse_none_of_econtent_none t _ st x ee b
      (econtent_none_of_empty_block aOpt bs b0 hmem hemp)
  · intro t aOpt bs st x ee b b0 fi k p1 p2 hmem htag hk hk1 hbad
    exact spl_parse_none_of_econtent_none t _ st x ee b
      (econtent_none_of_bad_sorting aOpt bs b0 fi k p1 p2 hmem htag hk hk1 hbad)
  · intro t aOpt bs st x ee b k l bi bj fi hkl hk hl hti htj
    exact spl_parse_none_of_econtent_none t _ st x ee b
      (econtent_none_of_dup_tags aOpt bs k l bi bj fi hkl hk hl hti htj)
  · intro t cms x c b hip
    exact spl_parse_none_of_bad_ee t cms x c b (Or.inr hip)
  · intro t cms x c b has
    exact spl_parse_none_of_bad_ee t cms x c b (Or.inl has)

/-- Witness for C6: each of the seven rejection cases evaluated at a small
concrete object. -/
theorem C6_rejection_cases_witness :
    spl_parse 1 (some (some (some 64496,
        [⟨some afi.AFI_IPV4, [some (mkV4 10 0 0 0 8)]⟩,
         ⟨some afi.AFI_IPV4, [some (mkV4 10 0 0 0 8)]⟩,
         ⟨some afi.AFI_IPV4, [some (mkV4 10 0 0 0 8)]⟩]), 0))
      ⟨none, none, none, none, none, none, false⟩ none true = none ∧
    spl_parse 1 (some (some (some 64496,
        [⟨some afi.AFI_IPV6, [some (mkV6 32 12)]⟩,
         ⟨some afi.AFI_IPV4, [some (mkV4 10 0 0 0 8)]⟩]), 0))
      ⟨none, none, none, none, none, none, false⟩ none true = none ∧
    spl_parse 1 (some (some (some 64496,
        [⟨some afi.AFI_IPV4, []⟩]), 0))
      ⟨none, none, none, none, none, none, false⟩ none true = none ∧
    spl_parse 1 (some (some (some 64496,
        [⟨some afi.AFI_IPV4,
          [some (mkV4 10 0 0 0 8), some (mkV4 10 0 0 0 8)]⟩]), 0))
      ⟨none, none, none, none, none, none, false⟩ none true = none ∧
    spl_parse 1 (some (some (some 64496,
        [⟨some afi.AFI_IPV4, [some (mkV4 10 0 0 0 8)]⟩,
         ⟨some afi.AFI_IPV4, [some (mkV4 10 1 0 0 16)]⟩]), 0))
      ⟨none, none, none, none, none, none, false⟩ none true = none ∧
    spl_parse 1 (some (some (some 64496,
        [⟨some afi.AFI_IPV4, [some (mkV4 10 0 0 0 8)]⟩]), 0))
      ⟨none, none, none, none, none, none, false⟩ (some ⟨1, 2⟩) true = none ∧
    spl_parse 1 (some (some (some 64496,
        [⟨some afi.AFI_IPV4, [some (mkV4 10 0 0 0 8)]⟩]), 0))
      ⟨none, none, none, none, none, none, false⟩ (some ⟨0, 0⟩) true = none := by
  refine ⟨?_, ?_, ?_, ?_, ?_, ?_, ?_⟩
  · exact C6_rejection_cases.1 1 (some 64496) _ 0 _ none true (by rfl)
  · exact C6_rejection_cases.2.1 1 (some 64496) _ 0 _ none true 0 1
      ⟨some afi.AFI_IPV6, [some (mkV6 32 12)]⟩
      ⟨some afi.AFI_IPV4, [some (mkV4 10 0 0 0 8)]⟩
      (by omega) (by rfl) (by rfl) (by rfl) (by rfl)
  · exact C6_rejection_cases.2.2.1 1 (some 64496) _ 0 _ none true
      ⟨some afi.AFI_IPV4, []⟩ (List.mem_cons_self _ _) (by rfl)
  · exact C6_rejection_cases.2.2.2.1 1 (some 64496) _ 0 _ none true
      ⟨some afi.AFI_IPV4, [some (mkV4 10 0 0 0 8), some (mkV4 10 0 0 0 8)]⟩
      afi.AFI_IPV4 0 (mkV4 10 0 0 0 8) (mkV4 10 0 0 0 8)
      (List.mem_cons_self _ _) (by rfl) (by rfl) (by rfl) (by decide)
  · exact C6_rejection_cases.2.2.2.2.1 1 (some 64496) _ 0 _ none true 0 1
      ⟨some afi.AFI_IPV4, [some (mkV4 10 0 0 0 8)]⟩
      ⟨some afi.AFI_IPV4, [some (mkV4 10 1 0 0 16)]⟩
      afi.AFI_IPV4 (by omega) (by rfl) (by rfl) (by rfl) (by rfl)
  · exact C6_rejection_cases.2.2.2.2.2.1 1 _ _ ⟨1, 2⟩ true (by decide)
  · exact C6_rejection_cases.2.2.2.2.2.2 1 _ _ ⟨0, 0⟩ true (by rfl)

/-- C8: the `valid_spl` policy verdict never rejects an object: acceptance
of `spl_parse` is independent of the verdict, an accepted record carries the
verdict in its `valid` field, and whenever every structural step succeeds
(CMS payload present, the four certificate identifier extensions extracted
and present, validity window extracted, eContent validated, no inherited
resources, AS resources non-empty, no IP resources) the object is returned
even with a failing verdict. -/
theorem C8_policy_never_rejects (t : Nat)
    (cms : Option (Option (Option Nat × List SplBlock) × Int)) (x : X509View)
    (ee : Option EECert) (b : Bool) :
    ((spl_parse t cms x ee b).isSome ↔ (spl_parse t cms x ee true).isSome) ∧
    (∀ s, spl_parse t cms x ee b = some s → s.valid = b) ∧
    (∀ (ec : Option (Option Nat × List SplBlock)) (st : Int)
       (a0 a1 a2 a3 : String) (nb na : Int) (asid : Nat)
       (pfxs : List spl_pfx) (c : EECert),
       cms = some (ec, st) → x.aia = some (some a0) → x.aki = some (some a1) →
       x.sia = some (some a2) → x.ski = some (some a3) →
       x.notbefore = some nb → x.notafter = some na →
       spl_parse_econtent ec = some (asid, pfxs) → x.anyInherits = false →
       ee = some c → c.asz ≠ 0 → ¬ 0 < c.ipsz →
       spl_parse t cms x ee b = some
         { valid := b, asid := asid, talid := t, pfxs := pfxs, expires := 0,
           aia := some a0, aki := some a1, sia := some a2, ski := some a3,
           signtime := st, notbefore := nb, notafter := na }) := by
  refine ⟨?_, ?_, ?_⟩
  · rw [spl_parse_valid_map t cms x ee b]
    cases spl_parse t cms x ee true <;> simp
  · intro s h
    rw [spl_parse_valid_map t cms x ee b] at h
    cases hp : spl_parse t cms x ee true with
    | none => rw [hp] at h; simp at h
    | some s0 =>
      rw [hp] at h
      simp only [Option.map_some'] at h
      have := Option.some.injEq _ _ ▸ h
      rw [← this]
  · intro ec st a0 a1 a2 a3 nb na asid pfxs c hcms haia haki hsia hski hnb
      hna hec hinh hee hasz hipsz
    subst hcms
    subst hee
    rcases x with ⟨xaia, xaki, xsia, xski, xnb, xna, xinh⟩
    simp only at haia haki hsia hski hnb hna hinh
    subst haia
    subst haki
    subst hsia
    subst hski
    subst hnb
    subst hna
    subst hinh
    simp [spl_parse, hec, hasz, hipsz]

/-- Witness for C8: a structurally well-formed object with a failing policy
verdict is still returned, marked invalid. -/
theorem C8_policy_never_rejects_witness :
    spl_parse 1 (some (some (some 64496, []), 5))
      ⟨some (some "rsync://a"), some (some "ak"), some (some "si"),
       some (some "sk"), some 1, some 9, false⟩
      (some ⟨1, 0⟩) false = some
      { valid := false, asid := 64496, talid := 1, pfxs := [], expires := 0,
        aia := some "rsync://a", aki := some "ak", sia := some "si",
        ski := some "sk", signtime := 5, notbefore := 1, notafter := 9 } :=
  (C8_policy_never_rejects 1 (some (some (some 64496, []), 5))
      ⟨some (some "rsync://a"), some (some "ak"), some (some "si"),
       some (some "sk"), some 1, some 9, false⟩
      (some ⟨1, 0⟩) false).2.2
    (some (some 64496, [])) 5 "rsync://a" "ak" "si" "sk" 1 9 64496 [] ⟨1, 0⟩
    rfl rfl rfl rfl rfl rfl rfl (by rfl) rfl rfl (by decide) (by decide)

/-- C4: decoding (`spl_read`) the encoding (`spl_buffer`) of any SPL record
whose three carried strings are present yields a record equal to it in AS
id, trust-anchor id, prefix count, expiration, the full prefix-entry list,
and the AIA, AKI and SKI strings. -/
theorem C4_codec_roundtrip (s : Spl) (h1 : s.aia.isSome) (h2 : s.aki.isSome)
    (h3 : s.ski.isSome) :
    ∃ r, spl_read (spl_buffer s) = some r ∧ r.asid = s.asid ∧
      r.talid = s.talid ∧ r.pfxs.length = s.pfxs.length ∧
      r.expires = s.expires ∧ r.pfxs = s.pfxs ∧ r.aia = s.aia ∧
      r.aki = s.aki ∧ r.ski = s.ski := by
  obtain ⟨a0, ha⟩ := Option.isSome_iff_exists.mp h1
  obtain ⟨a1, hb⟩ := Option.isSome_iff_exists.mp h2
  obtain ⟨a3, hc⟩ := Option.isSome_iff_exists.mp h3
  refine ⟨{ valid := s.valid, asid := s.asid, talid := s.talid,
            pfxs := s.pfxs, expires := s.expires, aia := s.aia,
            aki := s.aki, sia := none, ski := s.ski, signtime := 0,
            notbefore := 0, notafter := 0 }, ?_, rfl, rfl, rfl, rfl, rfl,
          rfl, rfl, rfl⟩
  simp only [spl_buffer, spl_read, List.cons_append, List.nil_append,
    io_read_pfxs_map]
  rw [ha, hb, hc]
  simp

/-- Witness for C4 at a concrete record with one IPv4 prefix. -/
theorem C4_codec_roundtrip_witness :
    ∃ r, spl_read (spl_buffer (mkSpl 64496 1 100 [pfxA])) = some r ∧
      r.asid = (mkSpl 64496 1 100 [pfxA]).asid ∧
      r.talid = (mkSpl 64496 1 100 [pfxA]).talid ∧
      r.pfxs.length = (mkSpl 64496 1 100 [pfxA]).pfxs.length ∧
      r.expires = (mkSpl 64496 1 100 [pfxA]).expires ∧
      r.pfxs = (mkSpl 64496 1 100 [pfxA]).pfxs ∧
      r.aia = (mkSpl 64496 1 100 [pfxA]).aia ∧
      r.aki = (mkSpl 64496 1 100 [pfxA]).aki ∧
      r.ski = (mkSpl 64496 1 100 [pfxA]).ski :=
  C4_codec_roundtrip (mkSpl 64496 1 100 [pfxA]) (by rfl) (by rfl) (by rfl)

/-- C1: after any `spl_insert_vsps` call the target VSP record's prefix
list is strictly increasing under the entry comparator (hence grouped by
family), contains every previously stored prefix and every incoming prefix,
and nothing else — independent of whether the metadata was superseded.  The
hypotheses are the maintained invariants: both lists sorted, and
comparator-equal entries across the two lists structurally equal (the
canonical-representation property of decoded addresses). -/
theorem C1_merge_sorted_union (tree : Nat → Option vsp) (spl : Spl)
    (rp : Option Nat)
    (hs : spl.pfxs.Pairwise pfxLt)
    (hold : (vspPrefixesAt tree spl.asid).Pairwise pfxLt)
    (hcanon : ∀ p ∈ spl.pfxs, ∀ q ∈ vspPrefixesAt tree spl.asid,
        spl_pfx_cmp p q = 0 → p = q) :
    ∃ v, ((spl_insert_vsps tree spl rp).1) spl.asid = some v ∧
      v.prefixes.Pairwise pfxLt ∧
      (∀ q ∈ vspPrefixesAt tree spl.asid, q ∈ v.prefixes) ∧
      (∀ p ∈ spl.pfxs, p ∈ v.prefixes) ∧
      (∀ y ∈ v.prefixes, y ∈ spl.pfxs ∨ y ∈ vspPrefixesAt tree spl.asid) := by
  cases htree : tree spl.asid with
  | none =>
    have hl := spl_insert_vsps_lookup_new tree spl rp htree
    have hold0 : vspPrefixesAt tree spl.asid = [] := by
      simp [vspPrefixesAt, htree]
    have hmerge : vsp_merge spl.pfxs [] = spl.pfxs := vsp_merge_nil_right _
    rw [hold0]
    refine ⟨_, hl, ?_, ?_, ?_, ?_⟩
    · simp only [hmerge]
      exact hs
    · intro q hq
      simp at hq
    · intro p hp
      simp only [hmerge]
      exact hp
    · intro y hy
      simp only [hmerge] at hy
      exact Or.inl hy
  | some found =>
    have hl := spl_insert_vsps_lookup_found tree spl rp found htree
    have holdpfx : vspPrefixesAt tree spl.asid = found.prefixes := by
      simp [vspPrefixesAt, htree]
    rw [holdpfx] at hold hcanon ⊢
    refine ⟨_, hl, ?_, ?_, ?_, ?_⟩
    · exact vsp_merge_pairwise _ _ hs hold
    · intro q hq
      exact vsp_merge_mem_right _ _ q hq
    · intro p hp
      exact vsp_merge_mem_left _ _ hcanon p hp
    · intro y hy
      exact vsp_merge_mem _ _ y hy

/-- Witness for C1: merging an SPL holding 10.1.0.0/16 into a record holding
10.0.0.0/8 and 10.2.0.0/16. -/
theorem C1_merge_sorted_union_witness :
    ∃ v, ((spl_insert_vsps (oneVspTree ⟨64496, 1, 2, 100, [pfxA, pfxC]⟩)
        (mkSpl 64496 3 200 [pfxB]) (some 7)).1)
        (mkSpl 64496 3 200 [pfxB]).asid = some v ∧
      v.prefixes.Pairwise pfxLt ∧
      (∀ q ∈ vspPrefixesAt (oneVspTree ⟨64496, 1, 2, 100, [pfxA, pfxC]⟩)
          (mkSpl 64496 3 200 [pfxB]).asid, q ∈ v.prefixes) ∧
      (∀ p ∈ (mkSpl 64496 3 200 [pfxB]).pfxs, p ∈ v.prefixes) ∧
      (∀ y ∈ v.prefixes, y ∈ (mkSpl 64496 3 200 [pfxB]).pfxs ∨
        y ∈ vspPrefixesAt (oneVspTree ⟨64496, 1, 2, 100, [pfxA, pfxC]⟩)
          (mkSpl 64496 3 200 [pfxB]).asid) :=
  C1_merge_sorted_union (oneVspTree ⟨64496, 1, 2, 100, [pfxA, pfxC]⟩)
    (mkSpl 64496 3 200 [pfxB]) (some 7) (by decide) (by decide) (by decide)

/-- C2: when a record already exists for the incoming SPL's AS id, its
trust-anchor id, repository id and expiration are replaced by the incoming
values exactly when the incoming expiration is strictly later; merging
expiration-100 and expiration-200 objects for one AS id in either order
ends with the 200-object's metadata and the prefixes of both retained. -/
theorem C2_supersede_metadata :
    (∀ (tree : Nat → Option vsp) (spl : Spl) (rp : Option Nat) (found : vsp),
       tree spl.asid = some found →
       ∃ v, ((spl_insert_vsps tree spl rp).1) spl.asid = some v ∧
         (found.expires < spl.expires →
            v.talid = spl.talid ∧
            v.repoid = (match rp with | some r => r | none => 0) ∧
            v.expires = spl.expires) ∧
         (¬ found.expires < spl.expires →
            v.talid = found.talid ∧ v.repoid = found.repoid ∧
            v.expires = found.expires)) ∧
    (∀ (s1 s2 : Spl) (tree0 : Nat → Option vsp) (rp1 rp2 : Option Nat),
       s1.asid = s2.asid → tree0 s1.asid = none →
       s1.expires = 100 → s2.expires = 200 →
       (∃ v, ((spl_insert_vsps (spl_insert_vsps tree0 s1 rp1).1 s2 rp2).1)
            s1.asid = some v ∧
          v.talid = s2.talid ∧
          v.repoid = (match rp2 with | some r => r | none => 0) ∧
          v.expires = 200 ∧
          (∀ p ∈ s1.pfxs, ∃ q ∈ v.prefixes, spl_pfx_cmp p q = 0) ∧
          (∀ p ∈ s2.pfxs, ∃ q ∈ v.prefixes, spl_pfx_cmp p q = 0)) ∧
       (∃ v, ((spl_insert_vsps (spl_insert_vsps tree0 s2 rp2).1 s1 rp1).1)
            s1.asid = some v ∧
          v.talid = s2.talid ∧
          v.repoid = (match rp2 with | some r => r | none => 0) ∧
          v.expires = 200 ∧
          (∀ p ∈ s1.pfxs, ∃ q ∈ v.prefixes, spl_pfx_cmp p q = 0) ∧
          (∀ p ∈ s2.pfxs, ∃ q ∈ v.prefixes, spl_pfx_cmp p q = 0))) := by
  constructor
  · intro tree spl rp found hf
    refine ⟨_, spl_insert_vsps_lookup_found tree spl rp found hf, ?_, ?_⟩
    · intro hsup
      simp [hsup]
    · intro hsup
      simp [hsup]
  · intro s1 s2 tree0 rp1 rp2 hasid h0 h100 h200
    constructor
    · have hl1 := spl_insert_vsps_lookup_new tree0 s1 rp1 h0
      rw [hasid] at hl1
      have hl2 := spl_insert_vsps_lookup_found _ s2 rp2 _ hl1
      simp only [h100, h200] at hl2
      simp only [show ((100 : Int) < 200) = True from by norm_num, if_true] at hl2
      refine ⟨_, by rw [hasid]; exact hl2, rfl, rfl, rfl, ?_, ?_⟩
      · intro p hp
        have hp1 : p ∈ vsp_merge s1.pfxs [] := by
          rw [vsp_merge_nil_right]
          exact hp
        exact ⟨p, vsp_merge_mem_right s2.pfxs _ p hp1, spl_pfx_cmp_self p⟩
      · intro p hp
        exact vsp_merge_mem_left_cmp s2.pfxs _ p hp
    · have hl1 := spl_insert_vsps_lookup_new tree0 s2 rp2
        (by rw [← hasid]; exact h0)
      rw [← hasid] at hl1
      have hl2 := spl_insert_vsps_lookup_found _ s1 rp1 _ hl1
      simp only [h100, h200] at hl2
      simp only [show ((200 : Int) < 100) = False from by norm_num, if_false] at hl2
      refine ⟨_, hl2, rfl, rfl, h200 ▸ rfl, ?_, ?_⟩
      · intro p hp
        exact vsp_merge_mem_left_cmp s1.pfxs _ p hp
      · intro p hp
        have hp1 : p ∈ vsp_merge s2.pfxs [] := by
          rw [vsp_merge_nil_right]
          exact hp
        exact ⟨p, vsp_merge_mem_right s1.pfxs _ p hp1, spl_pfx_cmp_self p⟩

/-- Witness for C2: a later-expiring SPL supersedes the metadata of an
existing record, and the 100/200 double merge (first order) ends with the
200-object's trust-anchor id, repository id and expiration, retaining the
prefixes of both objects. -/
theorem C2_supersede_metadata_witness :
    (∃ v, ((spl_insert_vsps (oneVspTree ⟨64496, 1, 2, 100, [pfxA, pfxC]⟩)
        (mkSpl 64496 3 200 [pfxB]) (some 7)).1) 64496 = some v ∧
      v.talid = 3 ∧ v.repoid = 7 ∧ v.expires = 200) ∧
    (∃ v, ((spl_insert_vsps
        (spl_insert_vsps emptyVspTree (mkSpl 64496 1 100 [pfxA]) (some 5)).1
        (mkSpl 64496 2 200 [pfxB]) (some 7)).1) 64496 = some v ∧
      v.talid = 2 ∧ v.repoid = 7 ∧ v.expires = 200 ∧
      (∃ q ∈ v.prefixes, spl_pfx_cmp pfxA q = 0) ∧
      (∃ q ∈ v.prefixes, spl_pfx_cmp pfxB q = 0)) := by
  constructor
  · obtain ⟨v, hv, hsup, _⟩ := C2_supersede_metadata.1
      (oneVspTree ⟨64496, 1, 2, 100, [pfxA, pfxC]⟩)
      (mkSpl 64496 3 200 [pfxB]) (some 7)
      ⟨64496, 1, 2, 100, [pfxA, pfxC]⟩ (by rfl)
    obtain ⟨h1, h2, h3⟩ := hsup (by decide)
    exact ⟨v, hv, h1, h2, h3⟩
  · obtain ⟨⟨v, hv, h1, h2, h3, hm1, hm2⟩, _⟩ := C2_supersede_metadata.2
      (mkSpl 64496 1 100 [pfxA]) (mkSpl 64496 2 200 [pfxB]) emptyVspTree
      (some 5) (some 7) (by rfl) (by rfl) (by rfl) (by rfl)
    exact ⟨v, hv, h1, h2, h3, hm1 pfxA (List.mem_cons_self _ _),
      hm2 pfxB (List.mem_cons_self _ _)⟩

/-- C3 counterexample: the claim says that on comparator equality only the
incoming pointer advances; but at the state `i = 0, j = 0` with incoming
`[pfxA]` and existing `[pfxA]` (entries compare equal) the loop body also
advances the existing-list index `j`, so the step is not `(1, 0, [pfxA])`. -/
theorem C3_counterexample :
    spl_pfx_cmp pfxA pfxA = 0 ∧
      spl_merge_step [pfxA] (0, 0, [pfxA]) = (1, 1, [pfxA]) ∧
      spl_merge_step [pfxA] (0, 0, [pfxA]) ≠ (1, 0, [pfxA]) := by
  refine ⟨by decide, by decide, by decide⟩

/-- C3 amended: the merge loop body of `spl_insert_vsps`, at a state with
entries remaining on both sides, behaves as follows: when the incoming entry
is strictly smaller it is inserted at slot `j` (shifting the tail right) and
both indices advance — leaving the existing index at the same original
entry, now shifted one slot right; when the entries compare equal both
indices advance; when the incoming entry is strictly greater only the
existing index advances. -/
theorem C3_merge_step_amended (pfxs prefixes : List spl_pfx) (i j : Nat)
    (hi : i < pfxs.length) (hj : j < prefixes.length) :
    (spl_pfx_cmp (pfxs.getD i default) (prefixes.getD j default) < 0 →
       spl_merge_step pfxs (i, j, prefixes) =
         (i + 1, j + 1, insert_vsp prefixes j (pfxs.getD i default))) ∧
    (spl_pfx_cmp (pfxs.getD i default) (prefixes.getD j default) = 0 →
       spl_merge_step pfxs (i, j, prefixes) = (i + 1, j + 1, prefixes)) ∧
    (0 < spl_pfx_cmp (pfxs.getD i default) (prefixes.getD j default) →
       spl_merge_step pfxs (i, j, prefixes) = (i, j + 1, prefixes)) := by
  have hlen : (insert_vsp prefixes j (pfxs.getD i default)).length =
      prefixes.length + 1 := insert_vsp_length prefixes j _ (by omega)
  refine ⟨?_, ?_, ?_⟩
  · intro hc
    simp only [spl_merge_step]
    rw [if_pos (Or.inr hc), hlen, if_pos (by omega)]
  · intro hc
    simp only [spl_merge_step]
    rw [if_neg (by push_neg; exact ⟨by omega, by omega⟩), if_pos hc,
      if_pos hj]
  · intro hc
    simp only [spl_merge_step]
    rw [if_neg (by push_neg; exact ⟨by omega, by omega⟩),
      if_neg (by omega), if_pos hj]

/-- Witness for C3 (amended): the three step behaviours at concrete
states. -/
theorem C3_merge_step_amended_witness :
    (spl_pfx_cmp ([pfxA].getD 0 default) ([pfxB].getD 0 default) < 0 →
       spl_merge_step [pfxA] (0, 0, [pfxB]) =
         (1, 1, insert_vsp [pfxB] 0 ([pfxA].getD 0 default))) ∧
    (spl_pfx_cmp ([pfxA].getD 0 default) ([pfxB].getD 0 default) = 0 →
       spl_merge_step [pfxA] (0, 0, [pfxB]) = (1, 1, [pfxB])) ∧
    (0 < spl_pfx_cmp ([pfxA].getD 0 default) ([pfxB].getD 0 default) →
       spl_merge_step [pfxA] (0, 0, [pfxB]) = (0, 1, [pfxB])) :=
  C3_merge_step_amended [pfxA] [pfxB] 0 0 (by decide) (by decide)

/-- C9: merging the same SPL content twice for the same AS id leaves the
record's prefix list — contents and count — unchanged after the second
merge. -/
theorem C9_merge_idempotent (tree : Nat → Option vsp) (spl : Spl)
    (rp rp' : Option Nat) (h1 : spl.pfxs.Pairwise pfxLt)
    (h2 : (vspPrefixesAt tree spl.asid).Pairwise pfxLt) :
    ∃ v1 v2, ((spl_insert_vsps tree spl rp).1) spl.asid = some v1 ∧
      ((spl_insert_vsps (spl_insert_vsps tree spl rp).1 spl rp').1) spl.asid
        = some v2 ∧
      v2.prefixes = v1.prefixes ∧ v2.prefixes.length = v1.prefixes.length := by
  cases htree : tree spl.asid with
  | none =>
    have hl1 := spl_insert_vsps_lookup_new tree spl rp htree
    have hl2 := spl_insert_vsps_lookup_found _ spl rp' _ hl1
    have hm : vsp_merge spl.pfxs [] = spl.pfxs := vsp_merge_nil_right _
    have hsorted : (vsp_merge spl.pfxs []).Pairwise pfxLt := by
      rw [hm]
      exact h1
    have habs : vsp_merge spl.pfxs (vsp_merge spl.pfxs []) =
        vsp_merge spl.pfxs [] := by
      refine vsp_merge_absorb _ _ h1 hsorted ?_
      intro x hx
      refine ⟨x, ?_, spl_pfx_cmp_self x⟩
      rw [hm]
      exact hx
    exact ⟨_, _, hl1, hl2, habs, by rw [habs]⟩
  | some found =>
    have hfp : (vspPrefixesAt tree spl.asid) = found.prefixes := by
      simp [vspPrefixesAt, htree]
    rw [hfp] at h2
    have hl1 := spl_insert_vsps_lookup_found tree spl rp found htree
    have hl2 := spl_insert_vsps_lookup_found _ spl rp' _ hl1
    have hsorted : (vsp_merge spl.pfxs found.prefixes).Pairwise pfxLt :=
      vsp_merge_pairwise _ _ h1 h2
    have habs : vsp_merge spl.pfxs (vsp_merge spl.pfxs found.prefixes) =
        vsp_merge spl.pfxs found.prefixes :=
      vsp_merge_absorb _ _ h1 hsorted (vsp_merge_mem_left_cmp _ _)
    exact ⟨_, _, hl1, hl2, habs, by rw [habs]⟩

/-- Witness for C9: the double merge of one SPL into a database already
holding a record for its AS id. -/
theorem C9_merge_idempotent_witness :
    ∃ v1 v2, ((spl_insert_vsps (oneVspTree ⟨64496, 1, 2, 100, [pfxA, pfxC]⟩)
        (mkSpl 64496 3 200 [pfxB]) (some 7)).1)
        (mkSpl 64496 3 200 [pfxB]).asid = some v1 ∧
      ((spl_insert_vsps
        (spl_insert_vsps (oneVspTree ⟨64496, 1, 2, 100, [pfxA, pfxC]⟩)
          (mkSpl 64496 3 200 [pfxB]) (some 7)).1
        (mkSpl 64496 3 200 [pfxB]) (some 9)).1)
        (mkSpl 64496 3 200 [pfxB]).asid = some v2 ∧
      v2.prefixes = v1.prefixes ∧ v2.prefixes.length = v1.prefixes.length :=
  C9_merge_idempotent (oneVspTree ⟨64496, 1, 2, 100, [pfxA, pfxC]⟩)
    (mkSpl 64496 3 200 [pfxB]) (some 7) (some 9) (by decide) (by decide)

/-- C10: merging a zero-prefix SPL (which the validator accepts: zero
address-family blocks are permitted) leaves the target record's prefix list
unchanged in length and contents, while the metadata supersede behaves as
for any SPL and the emitted statistics events are exactly those of the same
merge with any other prefix payload. -/
theorem C10_empty_spl_frame (tree : Nat → Option vsp) (spl : Spl)
    (rp : Option Nat) (found : vsp) (hp : spl.pfxs = [])
    (hf : tree spl.asid = some found) :
    (∃ v, ((spl_insert_vsps tree spl rp).1) spl.asid = some v ∧
       v.prefixes = found.prefixes ∧
       v.prefixes.length = found.prefixes.length ∧
       (found.expires < spl.expires →
          v.talid = spl.talid ∧
          v.repoid = (match rp with | some r => r | none => 0) ∧
          v.expires = spl.expires) ∧
       (¬ found.expires < spl.expires →
          v.talid = found.talid ∧ v.repoid = found.repoid ∧
          v.expires = found.expires)) ∧
    (∀ pfxs' : List spl_pfx, (spl_insert_vsps tree spl rp).2 =
       (spl_insert_vsps tree { spl with pfxs := pfxs' } rp).2) ∧
    (∀ a : Nat, spl_parse_econtent (some (some a, [])) = some (a, [])) := by
  refine ⟨?_, ?_, ?_⟩
  · have hl := spl_insert_vsps_lookup_found tree spl rp found hf
    have hm : vsp_merge spl.pfxs found.prefixes = found.prefixes := by
      rw [hp, vsp_merge]
    refine ⟨_, hl, hm, by rw [hm], ?_, ?_⟩
    · intro hsup
      simp [hsup]
    · intro hsup
      simp [hsup]
  · intro pfxs'
    rw [spl_insert_vsps_events_found tree spl rp found hf,
      spl_insert_vsps_events_found tree { spl with pfxs := pfxs' } rp found hf]
  · intro a
    rfl

/-- Witness for C10: a zero-prefix, later-expiring SPL leaves the prefixes
of the existing record untouched while superseding its metadata. -/
theorem C10_empty_spl_frame_witness :
    ∃ v, ((spl_insert_vsps (oneVspTree ⟨64496, 1, 2, 100, [pfxA, pfxC]⟩)
        (mkSpl 64496 3 200 []) (some 7)).1) 64496 = some v ∧
      v.prefixes = [pfxA, pfxC] ∧ v.talid = 3 ∧ v.repoid = 7 ∧
      v.expires = 200 := by
  obtain ⟨⟨v, hv, hpre, _, hsup, _⟩, _, _⟩ := C10_empty_spl_frame
    (oneVspTree ⟨64496, 1, 2, 100, [pfxA, pfxC]⟩) (mkSpl 64496 3 200 [])
    (some 7) ⟨64496, 1, 2, 100, [pfxA, pfxC]⟩ (by rfl) (by rfl)
  obtain ⟨h1, h2, h3⟩ := hsup (by decide)
  exact ⟨v, hv, hpre, h1, h2, h3⟩
